/-
Verification of the SaaS category classification pipeline
(packages/backend/app/saas_classification): feature extraction,
weighted keyword scoring, benchmark selection and product ranking.

Strings are modelled as lists of Unicode code points (`List Nat`);
Python floats are modelled as exact rationals (every weight in the
code is an exact binary fraction). Python `set`s are modelled as
duplicate-free lists built by insertion (`sinsert`/`mkSet`); every
use of a set in the code (membership tests and order-independent
sums) is invariant under the iteration order, so the model fixes
insertion order without loss of faithfulness.
-/
import Mathlib

namespace SaaSClassification

/-- Strings as lists of code points. -/
abbrev Str := List Nat

/-- Embed a Lean string literal into the code-point model. -/
def str (s : String) : Str := s.data.map Char.toNat

/-- ASCII lowercase of one code point (Python `str.lower` on the
    ASCII range used by the taxonomy and the pipeline). -/
def lowerChar (n : Nat) : Nat := if 65 ≤ n ∧ n ≤ 90 then n + 32 else n

/-- `str.lower()` on a whole string. -/
def lowerStr (s : Str) : Str := s.map lowerChar

/-- Python `str.split()` whitespace (ASCII): space, \t, \n, \r, \v, \f. -/
def isPySpace (n : Nat) : Bool :=
  decide (n = 32 ∨ n = 9 ∨ n = 10 ∨ n = 13 ∨ n = 11 ∨ n = 12)

/-- Worker for `words`: `cur` is the current (reversed) in-progress word. -/
def wordsAux : Str → Str → List Str
  | [], cur => if cur.isEmpty then [] else [cur.reverse]
  | c :: rest, cur =>
    if isPySpace c then
      if cur.isEmpty then wordsAux rest [] else cur.reverse :: wordsAux rest []
    else wordsAux rest (c :: cur)

/-- Python `s.split()`: maximal runs of non-whitespace characters. -/
def words (s : Str) : List Str := wordsAux s []

/-- Python `" ".join(ws)`. -/
def joinSp : List Str → Str
  | [] => []
  | [w] => w
  | w :: x :: ws => w ++ 32 :: joinSp (x :: ws)

/-- `_normalize_text`: lowercase and collapse whitespace
    (`" ".join(text.lower().split())`); empty input normalizes to "". -/
def normalizeText (s : Str) : Str := joinSp (words (lowerStr s))

/-- A character matched by the tokenizer regex `[a-z0-9_]`. -/
def isTokenChar (n : Nat) : Bool :=
  decide ((97 ≤ n ∧ n ≤ 122) ∨ (48 ≤ n ∧ n ≤ 57) ∨ n = 95)

/-- Worker for `tokenRuns`: `cur` is the current (reversed) in-progress run. -/
def runsAux : Str → Str → List Str
  | [], cur => if cur.isEmpty then [] else [cur.reverse]
  | c :: rest, cur =>
    if isTokenChar c then runsAux rest (c :: cur)
    else if cur.isEmpty then runsAux rest [] else cur.reverse :: runsAux rest []

/-- `re.findall(r"[a-z0-9_]+", s)`: maximal runs of token characters. -/
def tokenRuns (s : Str) : List Str := runsAux s []

def MIN_TOKEN_LENGTH : Nat := 2

/-- `DIGITS_ONLY_PATTERN`: the whole (nonempty) string is digits. -/
def isDigitsOnly (s : Str) : Bool :=
  !s.isEmpty && s.all (fun n => decide (48 ≤ n ∧ n ≤ 57))

/-- The filter `_tokenize` applies to each regex run. -/
def validToken (t : Str) : Bool :=
  decide (MIN_TOKEN_LENGTH ≤ t.length) && !isDigitsOnly t

/-- `_tokenize`: regex runs of the normalized text, keeping words of
    length ≥ 2 that are not entirely digits. -/
def tokenize (s : Str) : List Str := (tokenRuns (normalizeText s)).filter validToken

/-- Python `str.strip()` (ASCII whitespace). -/
def pstrip (s : Str) : Str :=
  ((s.dropWhile (fun c => isPySpace c)).reverse.dropWhile (fun c => isPySpace c)).reverse

/-- Add one element to a Python-set model (no-op when present). -/
def sinsert (x : Str) (s : List Str) : List Str := if x ∈ s then s else s ++ [x]

/-- Insert every element of `l` into the set `s`. -/
def insertAll (s : List Str) (l : List Str) : List Str :=
  l.foldl (fun a x => sinsert x a) s

/-- Python `set(l)`. -/
def mkSet (l : List Str) : List Str := insertAll [] l

mutual
/-- A Python value that can appear inside the `metadata` mapping
    (arbitrary nesting of None/bool/int/float/str/list/dict). -/
inductive Value where
  | vnone
  | vbool (b : Bool)
  | vint (n : Int)
  | vfloat (q : ℚ)
  | vstr (s : Str)
  | vlist (items : ValueList)
  | vdict (pairs : ValuePairs)

/-- A Python list of metadata values. -/
inductive ValueList where
  | nil
  | cons (v : Value) (rest : ValueList)

/-- A Python dict of metadata values (association list of key/value). -/
inductive ValuePairs where
  | nil
  | cons (k : Value) (v : Value) (rest : ValuePairs)
end

mutual
/-- `_normalize_metadata_value`: turn a metadata value into a list of
    normalized strings/tokens; None, bools and numbers contribute nothing. -/
def normalizeMetadataValue : Value → List Str
  | .vnone => []
  | .vbool _ => []
  | .vint _ => []
  | .vfloat _ => []
  | .vstr s =>
    let normalized := normalizeText s
    if normalized.isEmpty then [] else normalized :: tokenize normalized
  | .vlist items => normalizeMetadataList items
  | .vdict pairs => normalizeMetadataPairs pairs

/-- The `list/tuple` branch of `_normalize_metadata_value`. -/
def normalizeMetadataList : ValueList → List Str
  | .nil => []
  | .cons v rest => normalizeMetadataValue v ++ normalizeMetadataList rest

/-- The `dict` branch of `_normalize_metadata_value` (keys then values). -/
def normalizeMetadataPairs : ValuePairs → List Str
  | .nil => []
  | .cons k v rest =>
    normalizeMetadataValue k ++ normalizeMetadataValue v ++ normalizeMetadataPairs rest
end

/-- `ExtractedSignals`: structured output of the feature extractor.
    The three "sets" are duplicate-free lists (see module comment). -/
structure ExtractedSignals where
  website_tokens : List Str
  metadata_values : List Str
  product_tags : List Str
  website_text_normalized : Str

/-- `VendorInput`: all fields optional. `product_tags` elements may be
    arbitrary values (the extractor keeps only strings); `metadata` is a
    string-keyed mapping to arbitrary values. -/
structure VendorInput where
  website_text : Option Str := none
  description : Option Str := none
  name : Option Str := none
  product_tags : Option (List Value) := none
  metadata : Option (List (Str × Value)) := none

/-- `payload.get(key) or ""`: a missing or empty field becomes "". -/
def getOrEmpty (o : Option Str) : Str := o.getD []

/-- `" ".join(filter(None, [website_text, description, name]))`. -/
def combinedText (vendor_input : VendorInput) : Str :=
  joinSp ([getOrEmpty vendor_input.website_text, getOrEmpty vendor_input.description,
    getOrEmpty vendor_input.name].filter (fun s => !s.isEmpty))

/-- The loop `for part in parts: if part: set.add(part)`. -/
def addParts (acc : List Str) (parts : List Str) : List Str :=
  parts.foldl (fun a part => if part.isEmpty then a else sinsert part a) acc

/-- Metadata flattening loop of `extract_signals`: for each key/value
    pair add all non-empty normalized parts of the key, then of the value. -/
def metadataValuesOf (metadata : List (Str × Value)) : List Str :=
  metadata.foldl (fun acc kv =>
    addParts (addParts acc (normalizeMetadataValue (.vstr kv.1)))
      (normalizeMetadataValue kv.2)) []

/-- Product-tag loop body of `extract_signals`: keep non-blank string
    tags, adding the normalized tag and its tokenized parts. -/
def addTag (acc : List Str) (t : Value) : List Str :=
  match t with
  | .vstr s =>
    if (pstrip s).isEmpty then acc
    else
      let normalized := normalizeText (pstrip s)
      (tokenize normalized).foldl (fun a tok => sinsert tok a) (sinsert normalized acc)
  | _ => acc

def productTagsOf (product_tags : List Value) : List Str :=
  product_tags.foldl addTag []

/-- `extract_signals`: normalizes vendor metadata, tokenizes
    website/description/name text, extracts product tags, deduplicates. -/
def extract_signals (vendor_input : VendorInput) : ExtractedSignals :=
  let website_text_normalized := normalizeText (combinedText vendor_input)
  let tokens := tokenize website_text_normalized
  { website_tokens := mkSet tokens
    metadata_values := metadataValuesOf (vendor_input.metadata.getD [])
    product_tags := productTagsOf (vendor_input.product_tags.getD [])
    website_text_normalized := website_text_normalized }

/-- One category of the taxonomy. -/
structure CategoryDefinition where
  keywords : List Str
  metadata_triggers : List Str
  negative_signals : List Str
deriving DecidableEq

def WEIGHT_WEBSITE_KEYWORD : ℚ := 1.0

def WEIGHT_METADATA_MATCH : ℚ := 1.5

def WEIGHT_EXACT_PRODUCT_TAG : ℚ := 2.0

/-- `get_taxonomy`: the full SaaS taxonomy, in its enumeration order
    (Python dicts preserve insertion order). -/
def get_taxonomy : List (Str × CategoryDefinition) :=
  [ (str "Payments",
     { keywords := [str "payment", str "payments", str "checkout", str "billing",
         str "subscription billing", str "invoicing", str "stripe", str "stripe-like",
         str "payment gateway", str "payment processing", str "recurring revenue",
         str "merchant", str "transaction", str "refund", str "chargeback",
         str "payment method", str "card", str "ach", str "wire", str "fintech",
         str "payments api"]
       metadata_triggers := [str "payments", str "fintech", str "billing",
         str "checkout", str "payment"]
       negative_signals := [str "payroll", str "salary", str "hr payroll"] }),
    (str "Analytics",
     { keywords := [str "analytics", str "dashboard", str "metrics", str "kpi",
         str "reporting", str "data visualization", str "bi ", str "business intelligence",
         str "insights", str "funnel", str "conversion", str "tracking", str "events",
         str "segmentation", str "cohort", str "attribution"]
       metadata_triggers := [str "analytics", str "bi", str "reporting",
         str "metrics", str "insights"]
       negative_signals := [] }),
    (str "CRM",
     { keywords := [str "crm", str "customer relationship", str "sales pipeline",
         str "lead", str "contact", str "deal", str "opportunity", str "sales force",
         str "sales automation", str "contact management", str "account management",
         str "sales engagement", str "revenue operations"]
       metadata_triggers := [str "crm", str "sales", str "lead", str "pipeline",
         str "contact"]
       negative_signals := [] }),
    (str "DevTools",
     { keywords := [str "developer", str "devtools", str "api", str "sdk", str "cli",
         str "ide", str "code", str "ci/cd", str "cicd", str "continuous integration",
         str "deployment", str "git", str "debug", str "logging", str "monitoring",
         str "observability", str "infrastructure as code", str "container",
         str "kubernetes", str "docker", str "serverless", str "sre"]
       metadata_triggers := [str "devtools", str "developer", str "api", str "sdk",
         str "ci/cd", str "dev"]
       negative_signals := [str "marketing automation", str "crm"] }),
    (str "Marketing Automation",
     { keywords := [str "marketing automation", str "email marketing", str "campaign",
         str "automation", str "lead nurturing", str "drip", str "landing page",
         str "ab test", str "a/b test", str "marketing ops", str "demand gen",
         str "content marketing", str "seo"]
       metadata_triggers := [str "marketing", str "automation", str "email",
         str "campaign", str "demand gen"]
       negative_signals := [str "crm", str "sales pipeline"] }),
    (str "HRTech",
     { keywords := [str "hr", str "human resources", str "recruiting", str "recruitment",
         str "hiring", str "payroll", str "benefits", str "onboarding", str "performance",
         str "ats", str "applicant tracking", str "workforce", str "employee",
         str "hrms", str "hris"]
       metadata_triggers := [str "hr", str "hrtech", str "recruiting", str "payroll",
         str "hiring", str "hrms"]
       negative_signals := [] }),
    (str "Cybersecurity",
     { keywords := [str "security", str "cybersecurity", str "sso", str "identity",
         str "auth", str "mfa", str "compliance", str "soc", str "threat",
         str "vulnerability", str "pentest", str "zero trust", str "dlp", str "siem",
         str "endpoint", str "vpn"]
       metadata_triggers := [str "security", str "cybersecurity", str "sso",
         str "compliance", str "identity"]
       negative_signals := [] }),
    (str "Infrastructure",
     { keywords := [str "infrastructure", str "cloud", str "hosting", str "cdn",
         str "database", str "storage", str "compute", str "server", str "edge",
         str "serverless", str "iaas", str "paas", str "backup", str "disaster recovery",
         str "scaling", str "load balancer"]
       metadata_triggers := [str "infrastructure", str "cloud", str "hosting",
         str "database", str "storage"]
       negative_signals := [] }),
    (str "Collaboration",
     { keywords := [str "collaboration", str "team", str "chat", str "messaging",
         str "video call", str "meeting", str "slack", str "document", str "wiki",
         str "project management", str "async", str "remote", str "workspace",
         str "whiteboard"]
       metadata_triggers := [str "collaboration", str "team", str "chat",
         str "messaging", str "meeting"]
       negative_signals := [] }) ]

def MAX_SCORE_FOR_FULL_CONFIDENCE : ℚ := 15.0

def NEGATIVE_SIGNAL_PENALTY : ℚ := 2.0

def WEIGHT_WEBSITE_PHRASE : ℚ := 2.0

def GENERIC_PAYMENTS_TOKENS : List Str :=
  [str "payment", str "payments", str "billing", str "checkout", str "transaction",
   str "transactions", str "merchant", str "card", str "refund", str "chargeback"]

def GENERIC_PAYMENTS_TOKEN_MULTIPLIER : ℚ := 0.25

/-- `_normalize_keyword`: `key.lower().strip()`. -/
def normalizeKeyword (key : Str) : Str := pstrip (lowerStr key)

/-- `_category_keywords_normalized`: set of lowercase keywords. -/
def categoryKeywordsNormalized (keywords : List Str) : List Str :=
  mkSet (keywords.map normalizeKeyword)

/-- Per-category score components rounded for display
    (`negative_penalty` is stored non-positive). -/
structure ScoreBreakdown where
  website_keyword_score : ℚ
  metadata_match_score : ℚ
  product_tag_score : ℚ
  negative_penalty : ℚ
  total_raw : ℚ
deriving DecidableEq

/-- Python `round(q, ndigits)` on the exact rational value
    (round half to even). -/
def pyRound (q : ℚ) (ndigits : Nat) : ℚ :=
  let scale : ℚ := ((10 : ℚ) ^ ndigits)
  let x := q * scale
  let fl := ⌊x⌋
  let fr := x - fl
  let n : ℤ :=
    if fr < 1/2 then fl
    else if 1/2 < fr then fl + 1
    else if fl % 2 = 0 then fl else fl + 1
  (n : ℚ) / scale

/-- Token-level website scoring loop of `_score_category`. -/
def websiteTokenScore (category_id : Str) (keywords_set : List Str)
    (website_tokens : List Str) : ℚ :=
  (website_tokens.map (fun token =>
    if token ∈ keywords_set then
      if category_id = str "Payments" ∧ token ∈ GENERIC_PAYMENTS_TOKENS then
        WEIGHT_WEBSITE_KEYWORD * GENERIC_PAYMENTS_TOKEN_MULTIPLIER
      else WEIGHT_WEBSITE_KEYWORD
    else 0)).sum

/-- Phrase-level website scoring loop: multi-word keywords found as
    substrings of the normalized website text. -/
def websitePhraseScore (keywords : List Str) (website_text_normalized : Str) : ℚ :=
  (keywords.map (fun keyword =>
    let phrase := normalizeKeyword keyword
    if 32 ∈ phrase ∧ phrase <:+: website_text_normalized then
      WEIGHT_WEBSITE_PHRASE
    else 0)).sum

/-- Metadata scoring loop: exact or substring trigger match per value. -/
def metadataScore (metadata_triggers_set : List Str) (metadata_values : List Str) : ℚ :=
  (metadata_values.map (fun val =>
    if val ∈ metadata_triggers_set ∨ ∃ kw ∈ metadata_triggers_set, kw <:+: val then
      WEIGHT_METADATA_MATCH
    else 0)).sum

/-- Product-tag scoring loop. -/
def productTagScore (keywords_set metadata_triggers_set : List Str)
    (product_tags : List Str) : ℚ :=
  (product_tags.map (fun tag =>
    if tag ∈ keywords_set ∨ tag ∈ metadata_triggers_set then
      WEIGHT_EXACT_PRODUCT_TAG
    else 0)).sum

/-- Negative-signal penalty over all three signal sets. -/
def negativePenalty (negative_set : List Str) (signals : ExtractedSignals) : ℚ :=
  (signals.website_tokens.map (fun token =>
    if token ∈ negative_set then NEGATIVE_SIGNAL_PENALTY else 0)).sum
  + (signals.metadata_values.map (fun val =>
    if val ∈ negative_set then NEGATIVE_SIGNAL_PENALTY else 0)).sum
  + (signals.product_tags.map (fun tag =>
    if tag ∈ negative_set then NEGATIVE_SIGNAL_PENALTY else 0)).sum

/-- `_score_category`: website keywords (token and phrase level),
    metadata (1.5), product tag (2.0), minus negative signal penalty;
    the raw total is floored at 0. Returns (total_raw, breakdown). -/
def scoreCategory (category_id : Str) (definition : CategoryDefinition)
    (signals : ExtractedSignals) : ℚ × ScoreBreakdown :=
  let keywords_set := categoryKeywordsNormalized definition.keywords
  let metadata_triggers_set := categoryKeywordsNormalized definition.metadata_triggers
  let negative_set := categoryKeywordsNormalized definition.negative_signals
  let website_score := websiteTokenScore category_id keywords_set signals.website_tokens
    + websitePhraseScore definition.keywords signals.website_text_normalized
  let metadata_score := metadataScore metadata_triggers_set signals.metadata_values
  let product_tag_score := productTagScore keywords_set metadata_triggers_set signals.product_tags
  let negative_penalty := negativePenalty negative_set signals
  let total_raw := max 0 (website_score + metadata_score + product_tag_score - negative_penalty)
  (total_raw,
   { website_keyword_score := pyRound website_score 2
     metadata_match_score := pyRound metadata_score 2
     product_tag_score := pyRound product_tag_score 2
     negative_penalty := pyRound (-negative_penalty) 2
     total_raw := pyRound total_raw 2 })

/-- The raw score of one category on given signals. -/
def rawScore (category_id : Str) (definition : CategoryDefinition)
    (signals : ExtractedSignals) : ℚ :=
  (scoreCategory category_id definition signals).1

/-- The winner-selection loop of `classify`: state is
    (best_category, best_score, second_best_score). -/
def classifyFold : List (Str × ℚ) → Str × ℚ × ℚ → Str × ℚ × ℚ
  | [], acc => acc
  | (category_id, total_raw) :: rest, (bc, b, sb) =>
    if b < total_raw then classifyFold rest (category_id, total_raw, b)
    else if sb < total_raw then classifyFold rest (bc, b, total_raw)
    else classifyFold rest (bc, b, sb)

/-- The per-category raw scores in taxonomy enumeration order. -/
def scoredCategories (signals : ExtractedSignals) : List (Str × ℚ) :=
  get_taxonomy.map (fun p => (p.1, rawScore p.1 p.2 signals))

/-- `classify`: scores all taxonomy categories and returns the winning
    category, confidence in [0,1] from the best/second-best gap, and
    the per-category breakdowns. -/
def classify (signals : ExtractedSignals) : Str × ℚ × List (Str × ScoreBreakdown) :=
  let all_breakdowns := get_taxonomy.map (fun p => (p.1, (scoreCategory p.1 p.2 signals).2))
  let res := classifyFold (scoredCategories signals) (str "Unknown", 0, 0)
  let best_category := res.1
  let best_score := res.2.1
  let second_best_score := res.2.2
  let confidence :=
    if 0 < best_score then
      max 0 (min 1 (best_score / (best_score + second_best_score)))
    else 0
  (best_category, confidence, all_breakdowns)

/-- `CATEGORY_TO_BENCHMARK`: category label to benchmark key. -/
def CATEGORY_TO_BENCHMARK : List (Str × Str) :=
  [ (str "Payments", str "fintech_benchmark_v1"),
    (str "Analytics", str "analytics_benchmark_v1"),
    (str "CRM", str "crm_sales_benchmark_v1"),
    (str "DevTools", str "devtools_growth_benchmark"),
    (str "Marketing Automation", str "marketing_automation_benchmark_v1"),
    (str "HRTech", str "hrtech_benchmark_v1"),
    (str "Cybersecurity", str "cybersecurity_benchmark_v1"),
    (str "Infrastructure", str "infrastructure_benchmark_v1"),
    (str "Collaboration", str "collaboration_benchmark_v1") ]

def DEFAULT_BENCHMARK_KEY : Str := str "general_saas_benchmark_v1"

/-- `get_benchmark_key`: table lookup with default fallback. -/
def get_benchmark_key (category : Str) : Str :=
  match CATEGORY_TO_BENCHMARK.lookup category with
  | some key => key
  | none => DEFAULT_BENCHMARK_KEY

/-- `CATEGORY_TO_PRODUCTS`: example products per category. -/
def CATEGORY_TO_PRODUCTS : List (Str × List Str) :=
  [ (str "Infrastructure", [str "AWS", str "GCP", str "Azure"]),
    (str "Payments", [str "Stripe", str "Square", str "PayPal"]),
    (str "DevTools", [str "GitHub", str "GitLab", str "Vercel"]),
    (str "CRM", [str "Salesforce", str "HubSpot", str "Pipedrive"]),
    (str "Analytics", [str "Mixpanel", str "Amplitude", str "Looker"]),
    (str "Marketing Automation", [str "Marketo", str "Mailchimp", str "HubSpot Marketing Hub"]),
    (str "HRTech", [str "Workday", str "BambooHR", str "Greenhouse"]),
    (str "Cybersecurity", [str "Okta", str "CrowdStrike", str "Palo Alto Networks"]),
    (str "Collaboration", [str "Slack", str "Notion", str "Asana"]) ]

/-- `PRODUCT_ALIASES`: optional alias phrases per product. -/
def PRODUCT_ALIASES : List (Str × List Str) :=
  [ (str "AWS", [str "amazon web services", str "aws"]),
    (str "GCP", [str "google cloud", str "google cloud platform", str "gcp"]),
    (str "Azure", [str "microsoft azure", str "azure"]) ]

/-- The structured content of a `RankedProduct` reason entry
    (the code renders these as strings joined by "; "). -/
inductive MatchReason where
  | categoryAlignment
  | namePhraseMatch
  | aliasPhraseMatch (phrase : Str)
  | tokenMatch (hits : Nat)
  | vendorNameEquals
  | vendorNameSimilar
deriving DecidableEq

/-- One ranked product. -/
structure RankedProduct where
  name : Str
  score : ℚ
  reason : List MatchReason
deriving DecidableEq

/-- Python `token_source.split(" ")` (split at every single space,
    keeping empty pieces; the caller filters them out). -/
def splitSp : Str → List Str :=
  fun s => splitSpAux s []
where
  splitSpAux : Str → Str → List Str
    | [], cur => [cur.reverse]
    | c :: rest, cur =>
      if c == 32 then cur.reverse :: splitSpAux rest [] else splitSpAux rest (c :: cur)

/-- Score one candidate product of the winning category. -/
def scoreProduct (product : Str) (vendor_norm : Str)
    (website_text : Str) (website_tokens : List Str) : RankedProduct :=
  let product_norm := normalizeText product
  let aliases := (PRODUCT_ALIASES.lookup product).getD []
  let alias_norms := (aliases.filter (fun a => !a.isEmpty)).map normalizeText
  let phrase_candidates :=
    product_norm :: alias_norms.filter (fun a => !a.isEmpty && a ≠ product_norm)
  let matched_phrase :=
    phrase_candidates.find? (fun p => !p.isEmpty && decide (p <:+: website_text))
  let base : ℚ × List MatchReason := (1.0, [.categoryAlignment])
  let afterPhrase : ℚ × List MatchReason :=
    match matched_phrase with
    | some p =>
      if p = product_norm then (base.1 + 3.0, base.2 ++ [.namePhraseMatch])
      else (base.1 + 3.0, base.2 ++ [.aliasPhraseMatch p])
    | none =>
      let toks := (phrase_candidates.map splitSp).flatten.filter (fun t => !t.isEmpty)
      let token_hits := toks.countP (fun t => t ∈ website_tokens)
      if token_hits ≠ 0 then
        (base.1 + min 1.5 (0.5 * (token_hits : ℚ)), base.2 ++ [.tokenMatch token_hits])
      else base
  let afterVendor : ℚ × List MatchReason :=
    if ¬vendor_norm.isEmpty ∧ ¬product_norm.isEmpty then
      if vendor_norm = product_norm then
        (afterPhrase.1 + 2.0, afterPhrase.2 ++ [.vendorNameEquals])
      else if vendor_norm <:+: product_norm ∨ product_norm <:+: vendor_norm then
        (afterPhrase.1 + 1.0, afterPhrase.2 ++ [.vendorNameSimilar])
      else afterPhrase
    else afterPhrase
  { name := product, score := afterVendor.1, reason := afterVendor.2 }

/-- Lexicographic order on code-point strings (Python string `<=`). -/
def strLe : Str → Str → Bool
  | [], _ => true
  | _ :: _, [] => false
  | a :: s, b :: t => if a < b then true else if b < a then false else strLe s t

/-- The sort key `(-score, name.lower())` of the ranking, as a total
    boolean order. -/
def rankLe (p q : RankedProduct) : Bool :=
  decide (q.score < p.score) ||
    (decide (p.score = q.score) && strLe (lowerStr p.name) (lowerStr q.name))

/-- `rank_products_for_category`: deterministic top-N example products
    for a category (score desc, then case-insensitive name asc). -/
def rank_products_for_category (category : Str) (vendor_name : Str)
    (signals : ExtractedSignals) (top_n : Int := 3) : List RankedProduct :=
  let products := (CATEGORY_TO_PRODUCTS.lookup category).getD []
  if products.isEmpty ∨ top_n ≤ 0 then []
  else
    let website_text := signals.website_text_normalized
    let website_tokens := signals.website_tokens
    let vendor_norm := normalizeText vendor_name
    let ranked := products.map
      (fun product => scoreProduct product vendor_norm website_text website_tokens)
    (ranked.mergeSort rankLe).take top_n.toNat

/-- The `category_profile` extension attached to the public result. -/
structure CategoryProfile where
  category_name : Str
  confidence : ℚ
  top_products : List RankedProduct
deriving DecidableEq

/-- Public API result of `classify_saas`. -/
structure ClassifySaaSResult where
  category : Str
  confidence : ℚ
  benchmark_key : Str
  category_profile : CategoryProfile
deriving DecidableEq

/-- `classify_saas`: classify a SaaS vendor into a category; returns
    category, confidence (rounded to 4 decimals), benchmark key and the
    top-3 ranked products. -/
def classify_saas (vendor_input : VendorInput) : ClassifySaaSResult :=
  let signals := extract_signals vendor_input
  let res := classify signals
  let category := res.1
  let confidence := res.2.1
  let benchmark_key := get_benchmark_key category
  let vendor_name := getOrEmpty vendor_input.name
  let top_products := rank_products_for_category category vendor_name signals 3
  { category := category
    confidence := pyRound confidence 4
    benchmark_key := benchmark_key
    category_profile :=
      { category_name := category
        confidence := pyRound confidence 4
        top_products := top_products } }

/-- A string is fully normalized (fixed by `_normalize_text`); such a
    string is lowercase and whitespace-collapsed. -/
def NormalizedStr (s : Str) : Prop := normalizeText s = s

/-- The best per-category raw score over the whole taxonomy. -/
def bestRawScore (signals : ExtractedSignals) : ℚ :=
  (scoredCategories signals).foldl (fun m p => max m p.2) 0

/-- The ordering of the ranked output: strictly descending score, with
    ties broken by ascending case-insensitive product name. -/
def rankOrder (p q : RankedProduct) : Prop :=
  q.score < p.score ∨ (p.score = q.score ∧ strLe (lowerStr p.name) (lowerStr q.name) = true)

/-- Scenario input from the spec: Stripe. -/
def stripeInput : VendorInput :=
  { name := some (str "Stripe")
    description := some (str "Payment processing for the internet.")
    product_tags := some [.vstr (str "payments"), .vstr (str "api"), .vstr (str "fintech")] }

/-- Append one occurrence of `kw` (separated by a space) to the
    website text of a vendor input. -/
def augmentWebsiteText (input : VendorInput) (kw : Str) : VendorInput :=
  { input with website_text := some (getOrEmpty input.website_text ++ 32 :: kw) }

/-- An input whose only text field is the website text. -/
def c6Solo : VendorInput := { website_text := some (str "payment") }

/-- Base input of the monotonicity counterexample: the phrase keyword
    "payment processing" matches across the website/description boundary. -/
def c6Base : VendorInput :=
  { website_text := some (str "payment"), description := some (str "processing") }

/-- The counterexample input: one occurrence of the Payments keyword
    "billing" appended to the website text of `c6Base`. -/
def c6Aug : VendorInput := augmentWebsiteText c6Base (str "billing")

/-- The first taxonomy entry (Payments), used to instantiate theorems. -/
def taxonomyHead : Str × CategoryDefinition :=
  get_taxonomy.getD 0 (str "Unknown", { keywords := [], metadata_triggers := [], negative_signals := [] })

/-- A small signal record with a single decisive token, used to
    instantiate theorems about `classify`. -/
def crmSignals : ExtractedSignals :=
  { website_tokens := [str "crm"]
    metadata_values := []
    product_tags := []
    website_text_normalized := str "crm" }

/-- An all-empty signal record. -/
def emptySignals : ExtractedSignals :=
  { website_tokens := [], metadata_values := [], product_tags := [],
    website_text_normalized := [] }

/-! ### Lemmas about the Python-set model -/

theorem mem_sinsert {x y : Str} {s : List Str} : x ∈ sinsert y s ↔ x = y ∨ x ∈ s := by
  unfold sinsert
  by_cases h : y ∈ s
  · rw [if_pos h]
    constructor
    · exact Or.inr
    · rintro (rfl | hx) <;> assumption
  · rw [if_neg h]
    simp [List.mem_append, or_comm]

theorem nodup_sinsert {y : Str} {s : List Str} (h : s.Nodup) : (sinsert y s).Nodup := by
  unfold sinsert
  by_cases hy : y ∈ s
  · rwa [if_pos hy]
  · rw [if_neg hy, List.nodup_append]
    exact ⟨h, List.nodup_singleton y, fun a ha hay => hy ((List.mem_singleton.mp hay) ▸ ha)⟩

theorem insertAll_cons {y : Str} {s : List Str} {l : List Str} :
    insertAll s (y :: l) = insertAll (sinsert y s) l := rfl

theorem mem_insertAll {x : Str} : ∀ (l s : List Str), x ∈ insertAll s l ↔ x ∈ s ∨ x ∈ l
  | [], s => by simp [insertAll]
  | y :: l, s => by
    rw [insertAll_cons, mem_insertAll l (sinsert y s), mem_sinsert]
    simp only [List.mem_cons]
    tauto

theorem nodup_insertAll : ∀ (l s : List Str), s.Nodup → (insertAll s l).Nodup
  | [], _, h => h
  | y :: l, s, h => by
    rw [insertAll_cons]
    exact nodup_insertAll l (sinsert y s) (nodup_sinsert h)

theorem mem_mkSet {x : Str} {l : List Str} : x ∈ mkSet l ↔ x ∈ l := by
  unfold mkSet
  rw [mem_insertAll]
  simp

theorem nodup_mkSet {l : List Str} : (mkSet l).Nodup :=
  nodup_insertAll l [] List.nodup_nil

theorem insertAll_eq_of_subset : ∀ (l s : List Str), (∀ x ∈ l, x ∈ s) → insertAll s l = s
  | [], _, _ => rfl
  | y :: l, s, h => by
    rw [insertAll_cons, sinsert, if_pos (h y (List.mem_cons_self y l))]
    exact insertAll_eq_of_subset l s (fun x hx => h x (List.mem_cons_of_mem y hx))

theorem mkSet_append {a b : List Str} : mkSet (a ++ b) = insertAll (mkSet a) b := by
  unfold mkSet insertAll
  rw [List.foldl_append]

theorem mkSet_append_self {l : List Str} : mkSet (l ++ l) = mkSet l := by
  rw [mkSet_append]
  exact insertAll_eq_of_subset l (mkSet l) (fun x hx => mem_mkSet.mpr hx)

/-! ### Lemmas about characters -/

theorem lowerChar_lowerChar (n : Nat) : lowerChar (lowerChar n) = lowerChar n := by
  unfold lowerChar
  by_cases h : 65 ≤ n ∧ n ≤ 90
  · rw [if_pos h, if_neg (by omega)]
  · rw [if_neg h, if_neg h]

theorem isPySpace_lowerChar (n : Nat) : isPySpace (lowerChar n) = isPySpace n := by
  unfold lowerChar isPySpace
  by_cases h : 65 ≤ n ∧ n ≤ 90
  · rw [if_pos h, decide_eq_decide]
    omega
  · rw [if_neg h]

theorem lowerChar_of_isTokenChar {n : Nat} (h : isTokenChar n = true) : lowerChar n = n := by
  unfold isTokenChar at h
  rw [decide_eq_true_eq] at h
  unfold lowerChar
  rw [if_neg (by omega)]

theorem not_isPySpace_of_isTokenChar {n : Nat} (h : isTokenChar n = true) :
    isPySpace n = false := by
  unfold isTokenChar at h
  rw [decide_eq_true_eq] at h
  unfold isPySpace
  exact decide_eq_false (by omega)

theorem isPySpace_space : isPySpace 32 = true := rfl

theorem isTokenChar_space : isTokenChar 32 = false := rfl

theorem lowerChar_space : lowerChar 32 = 32 := rfl

/-! ### Lemmas about `words` and `joinSp` -/

theorem wordsAux_append_space {c : Nat} (hc : isPySpace c = true) (b : Str) :
    ∀ (a cur : Str), wordsAux (a ++ c :: b) cur = wordsAux a cur ++ wordsAux b [] := by
  intro a
  induction a with
  | nil =>
    intro cur
    by_cases hcur : cur.isEmpty <;> simp [wordsAux, hc, hcur]
  | cons d a ih =>
    intro cur
    by_cases hd : isPySpace d
    · by_cases hcur : cur.isEmpty <;> simp [wordsAux, hd, hcur, ih]
    · simp [wordsAux, hd, ih]

theorem words_append_space {c : Nat} (hc : isPySpace c = true) (a b : Str) :
    words (a ++ c :: b) = words a ++ words b :=
  wordsAux_append_space hc b a []

theorem wordsAux_sound :
    ∀ (s cur : Str), (∀ ch ∈ cur, isPySpace ch = false) →
      ∀ w ∈ wordsAux s cur, w ≠ [] ∧ ∀ ch ∈ w, isPySpace ch = false ∧ (ch ∈ s ∨ ch ∈ cur) := by
  intro s
  induction s with
  | nil =>
    intro cur hcur w hw
    by_cases h : cur.isEmpty
    · simp [wordsAux, h] at hw
    · simp only [wordsAux, h, Bool.false_eq_true, if_false, List.mem_singleton] at hw
      subst hw
      refine ⟨by simpa using (by simpa using h : cur ≠ []), fun ch hch => ?_⟩
      rw [List.mem_reverse] at hch
      exact ⟨hcur ch hch, Or.inr hch⟩
  | cons c rest ih =>
    intro cur hcur w hw
    by_cases hc : isPySpace c
    · rw [wordsAux, if_pos hc] at hw
      by_cases hcur' : cur.isEmpty
      · rw [if_pos hcur'] at hw
        obtain ⟨hne, hall⟩ := ih [] (by simp) w hw
        exact ⟨hne, fun ch hch => ⟨(hall ch hch).1,
          Or.inl (List.mem_cons_of_mem c ((hall ch hch).2.resolve_right (by simp)))⟩⟩
      · rw [if_neg hcur'] at hw
        rcases List.mem_cons.mp hw with rfl | hw'
        · refine ⟨by simpa using (by simpa using hcur' : cur ≠ []), fun ch hch => ?_⟩
          rw [List.mem_reverse] at hch
          exact ⟨hcur ch hch, Or.inr hch⟩
        · obtain ⟨hne, hall⟩ := ih [] (by simp) w hw'
          exact ⟨hne, fun ch hch => ⟨(hall ch hch).1,
            Or.inl (List.mem_cons_of_mem c ((hall ch hch).2.resolve_right (by simp)))⟩⟩
    · rw [wordsAux, if_neg hc] at hw
      have hc' : isPySpace c = false := by revert hc; cases isPySpace c <;> simp
      obtain ⟨hne, hall⟩ := ih (c :: cur)
        (fun ch hch => by rcases List.mem_cons.mp hch with rfl | h; exacts [hc', hcur ch h]) w hw
      refine ⟨hne, fun ch hch => ⟨(hall ch hch).1, ?_⟩⟩
      rcases (hall ch hch).2 with h | h
      · exact Or.inl (List.mem_cons_of_mem c h)
      · rcases List.mem_cons.mp h with rfl | h'
        · exact Or.inl (List.mem_cons_self ch rest)
        · exact Or.inr h'

theorem words_sound (s : Str) :
    ∀ w ∈ words s, w ≠ [] ∧ ∀ ch ∈ w, isPySpace ch = false ∧ ch ∈ s := by
  intro w hw
  obtain ⟨hne, hall⟩ := wordsAux_sound s [] (by simp) w hw
  exact ⟨hne, fun ch hch => ⟨(hall ch hch).1, (hall ch hch).2.resolve_right (by simp)⟩⟩

theorem wordsAux_nospace :
    ∀ (s : Str), (∀ ch ∈ s, isPySpace ch = false) → ∀ cur : Str,
      wordsAux s cur = if s.isEmpty && cur.isEmpty then [] else [cur.reverse ++ s] := by
  intro s
  induction s with
  | nil =>
    intro _ cur
    by_cases h : cur.isEmpty <;> simp [wordsAux, h]
  | cons c rest ih =>
    intro hs cur
    have hc : isPySpace c = false := hs c (List.mem_cons_self c rest)
    rw [wordsAux, if_neg (by simp [hc])]
    rw [ih (fun ch hch => hs ch (List.mem_cons_of_mem c hch)) (c :: cur)]
    simp

theorem words_single {w : Str} (hne : w ≠ [])
    (hw : ∀ ch ∈ w, isPySpace ch = false) : words w = [w] := by
  unfold words
  rw [wordsAux_nospace w hw []]
  simp [hne]

theorem wordsAux_ne_nil_of_cur : ∀ (s cur : Str), cur ≠ [] → wordsAux s cur ≠ [] := by
  intro s
  induction s with
  | nil => intro cur h; simp [wordsAux, h]
  | cons c rest ih =>
    intro cur h
    by_cases hc : isPySpace c
    · rw [wordsAux, if_pos hc, if_neg (by simpa using h)]
      simp
    · rw [wordsAux, if_neg hc]
      exact ih (c :: cur) (by simp)

theorem words_ne_nil {s : Str} (h : ∃ ch ∈ s, isPySpace ch = false) : words s ≠ [] := by
  unfold words
  obtain ⟨ch, hch, hsp⟩ := h
  induction s with
  | nil => simp at hch
  | cons c rest ih =>
    by_cases hc : isPySpace c
    · have hch' : ch ∈ rest := by
        rcases List.mem_cons.mp hch with rfl | h'
        · rw [hc] at hsp; cases hsp
        · exact h'
      rw [wordsAux, if_pos hc, if_pos (by simp)]
      exact ih hch'
    · rw [wordsAux, if_neg hc]
      exact wordsAux_ne_nil_of_cur rest [c] (by simp)

theorem joinSp_cons_cons (w x : Str) (ws : List Str) :
    joinSp (w :: x :: ws) = w ++ 32 :: joinSp (x :: ws) := rfl

theorem joinSp_append : ∀ (ws : List Str), ws ≠ [] → ∀ (vs : List Str), vs ≠ [] →
    joinSp (ws ++ vs) = joinSp ws ++ 32 :: joinSp vs
  | [], h, _, _ => absurd rfl h
  | [w], _, [], h => absurd rfl h
  | [w], _, v :: vs, _ => rfl
  | w :: x :: ws, _, vs, hvs => by
    have ih := joinSp_append (x :: ws) (by simp) vs hvs
    rw [List.cons_append] at ih
    rw [List.cons_append, List.cons_append, joinSp_cons_cons, ih, joinSp_cons_cons,
      List.append_assoc]
    rfl

theorem mem_joinSp : ∀ (ws : List Str) (ch : Nat), ch ∈ joinSp ws →
    ch = 32 ∨ ∃ w ∈ ws, ch ∈ w
  | [], ch, h => by simp [joinSp] at h
  | [w], ch, h => Or.inr ⟨w, by simp, h⟩
  | w :: x :: ws, ch, h => by
    rw [joinSp_cons_cons] at h
    rcases List.mem_append.mp h with h' | h'
    · exact Or.inr ⟨w, by simp, h'⟩
    · rcases List.mem_cons.mp h' with rfl | h''
      · exact Or.inl rfl
      · rcases mem_joinSp (x :: ws) ch h'' with h3 | ⟨v, hv, hchv⟩
        · exact Or.inl h3
        · exact Or.inr ⟨v, List.mem_cons_of_mem w hv, hchv⟩

theorem joinSp_ne_nil : ∀ (ws : List Str), ws ≠ [] → (∀ w ∈ ws, w ≠ []) → joinSp ws ≠ []
  | [], h, _ => absurd rfl h
  | [w], _, hall => by simpa [joinSp] using hall w (by simp)
  | w :: x :: ws, _, _ => by
    rw [joinSp_cons_cons]
    simp

theorem lowerStr_joinSp : ∀ (ws : List Str), lowerStr (joinSp ws) = joinSp (ws.map lowerStr)
  | [] => rfl
  | [w] => rfl
  | w :: x :: ws => by
    rw [joinSp_cons_cons, List.map_cons, List.map_cons, joinSp_cons_cons, ← List.map_cons,
      ← lowerStr_joinSp (x :: ws)]
    unfold lowerStr
    rw [List.map_append, List.map_cons]
    rfl

/-! ### Lemmas about `normalizeText` -/

theorem words_joinSp : ∀ (ws : List Str),
    (∀ w ∈ ws, w ≠ [] ∧ ∀ ch ∈ w, isPySpace ch = false) → words (joinSp ws) = ws
  | [], _ => rfl
  | [w], h => by
    rw [show joinSp [w] = w from rfl, words_single (h w (by simp)).1 (h w (by simp)).2]
  | w :: x :: ws, h => by
    rw [joinSp_cons_cons, words_append_space isPySpace_space,
      words_single (h w (by simp)).1 (h w (by simp)).2,
      words_joinSp (x :: ws) (fun v hv => h v (List.mem_cons_of_mem w hv))]
    rfl

theorem lowerStr_fix {w : Str} (h : ∀ ch ∈ w, lowerChar ch = ch) : lowerStr w = w := by
  unfold lowerStr
  conv_rhs => rw [← List.map_id w]
  exact List.map_congr_left h

theorem map_lowerStr_words (s : Str) :
    (words (lowerStr s)).map lowerStr = words (lowerStr s) := by
  conv_rhs => rw [← List.map_id (words (lowerStr s))]
  apply List.map_congr_left
  intro w hw
  apply lowerStr_fix
  intro ch hch
  obtain ⟨d, _, rfl⟩ := List.mem_map.mp (((words_sound (lowerStr s) w hw).2 ch hch).2)
  exact lowerChar_lowerChar d

theorem normalizeText_idem (s : Str) : normalizeText (normalizeText s) = normalizeText s := by
  conv_lhs => rw [normalizeText, normalizeText]
  rw [lowerStr_joinSp, map_lowerStr_words,
    words_joinSp _ (fun w hw => ⟨(words_sound (lowerStr s) w hw).1,
      fun ch hch => ((words_sound (lowerStr s) w hw).2 ch hch).1⟩)]
  rfl

theorem lowerStr_normalizeText (s : Str) :
    lowerStr (normalizeText s) = normalizeText s := by
  unfold normalizeText
  rw [lowerStr_joinSp, map_lowerStr_words]

theorem normalizeText_of_tokenStr {t : Str} (hne : t ≠ [])
    (ht : ∀ ch ∈ t, isTokenChar ch = true) : normalizeText t = t := by
  unfold normalizeText
  rw [lowerStr_fix (fun ch hch => lowerChar_of_isTokenChar (ht ch hch)),
    words_single hne (fun ch hch => not_isPySpace_of_isTokenChar (ht ch hch))]
  rfl

theorem normalizeText_ne_nil {s : Str} (h : ∃ ch ∈ s, isPySpace ch = false) :
    normalizeText s ≠ [] := by
  unfold normalizeText
  obtain ⟨ch, hch, hsp⟩ := h
  apply joinSp_ne_nil
  · exact words_ne_nil ⟨lowerChar ch, List.mem_map_of_mem lowerChar hch,
      by rw [isPySpace_lowerChar]; exact hsp⟩
  · intro w hw
    exact (words_sound _ w hw).1

theorem exists_nonspace_of_dropWhile_ne_nil : ∀ {l : Str},
    l.dropWhile (fun c => isPySpace c) ≠ [] →
    ∃ ch ∈ l.dropWhile (fun c => isPySpace c), isPySpace ch = false := by
  intro l
  induction l with
  | nil => intro h; simp at h
  | cons c rest ih =>
    intro h
    by_cases hc : isPySpace c
    · rw [List.dropWhile_cons, if_pos (by simpa using hc)] at h ⊢
      exact ih h
    · rw [List.dropWhile_cons, if_neg (by simpa using hc)]
      exact ⟨c, List.mem_cons_self c rest, by revert hc; cases isPySpace c <;> simp⟩

theorem pstrip_has_nonspace {s : Str} (h : pstrip s ≠ []) :
    ∃ ch ∈ pstrip s, isPySpace ch = false := by
  unfold pstrip at h ⊢
  have h' : ((s.dropWhile (fun c => isPySpace c)).reverse.dropWhile (fun c => isPySpace c)) ≠ [] := by
    intro hx
    rw [hx] at h
    exact h rfl
  obtain ⟨ch, hm, hsp⟩ := exists_nonspace_of_dropWhile_ne_nil h'
  exact ⟨ch, List.mem_reverse.mpr hm, hsp⟩

/-! ### Lemmas about the tokenizer -/

theorem runsAux_append {c : Nat} (hc : isTokenChar c = false) (b : Str) :
    ∀ (a cur : Str), runsAux (a ++ c :: b) cur = runsAux a cur ++ runsAux b [] := by
  intro a
  induction a with
  | nil =>
    intro cur
    by_cases hcur : cur.isEmpty <;> simp [runsAux, hc, hcur]
  | cons d a ih =>
    intro cur
    by_cases hd : isTokenChar d
    · simp [runsAux, hd, ih]
    · by_cases hcur : cur.isEmpty <;> simp [runsAux, hd, hcur, ih]

theorem runsAux_sound :
    ∀ (s cur : Str), (∀ ch ∈ cur, isTokenChar ch = true) →
      ∀ t ∈ runsAux s cur, t ≠ [] ∧ ∀ ch ∈ t, isTokenChar ch = true := by
  intro s
  induction s with
  | nil =>
    intro cur hcur t ht
    by_cases h : cur.isEmpty
    · simp [runsAux, h] at ht
    · simp only [runsAux, h, Bool.false_eq_true, if_false, List.mem_singleton] at ht
      subst ht
      refine ⟨by simpa using (by simpa using h : cur ≠ []), fun ch hch => ?_⟩
      exact hcur ch (List.mem_reverse.mp hch)
  | cons c rest ih =>
    intro cur hcur t ht
    by_cases hc : isTokenChar c
    · rw [runsAux, if_pos hc] at ht
      exact ih (c :: cur)
        (fun ch hch => by rcases List.mem_cons.mp hch with rfl | h; exacts [hc, hcur ch h]) t ht
    · rw [runsAux, if_neg hc] at ht
      by_cases hcur' : cur.isEmpty
      · rw [if_pos hcur'] at ht
        exact ih [] (by simp) t ht
      · rw [if_neg hcur'] at ht
        rcases List.mem_cons.mp ht with rfl | ht'
        · refine ⟨by simpa using (by simpa using hcur' : cur ≠ []), fun ch hch => ?_⟩
          exact hcur ch (List.mem_reverse.mp hch)
        · exact ih [] (by simp) t ht'

theorem tokenRuns_sound {s : Str} :
    ∀ t ∈ tokenRuns s, t ≠ [] ∧ ∀ ch ∈ t, isTokenChar ch = true :=
  runsAux_sound s [] (by simp)

theorem tokenRuns_joinSp_append : ∀ (A B : List Str),
    tokenRuns (joinSp (A ++ B)) = tokenRuns (joinSp A) ++ tokenRuns (joinSp B) := by
  intro A B
  rcases hA : A with _ | ⟨a, A'⟩
  · simp [joinSp, tokenRuns, runsAux]
  · rcases hB : B with _ | ⟨b, B'⟩
    · simp [joinSp, tokenRuns, runsAux]
    · rw [joinSp_append _ (by simp) _ (by simp)]
      exact runsAux_append isTokenChar_space _ _ []

theorem tokenize_normalizeText (s : Str) : tokenize (normalizeText s) = tokenize s := by
  unfold tokenize
  rw [normalizeText_idem]

theorem tokenize_sound {s : Str} : ∀ t ∈ tokenize s, NormalizedStr t ∧ t ≠ [] := by
  intro t ht
  rw [tokenize, List.mem_filter] at ht
  obtain ⟨h1, h2⟩ := tokenRuns_sound t ht.1
  exact ⟨normalizeText_of_tokenStr h1 h2, h1⟩

theorem lowerStr_append_space (a b : Str) :
    lowerStr (a ++ 32 :: b) = lowerStr a ++ 32 :: lowerStr b := by
  unfold lowerStr
  rw [List.map_append, List.map_cons, lowerChar_space]

theorem normalizeText_append_space (a b : Str) :
    normalizeText (a ++ 32 :: b) = joinSp (words (lowerStr a) ++ words (lowerStr b)) := by
  unfold normalizeText
  rw [lowerStr_append_space, words_append_space isPySpace_space]

theorem tokenize_append_space (a b : Str) :
    tokenize (a ++ 32 :: b) = tokenize a ++ tokenize b := by
  unfold tokenize
  rw [normalizeText_append_space, tokenRuns_joinSp_append, ← List.filter_append]
  rfl

/-! ### Soundness of the extracted signals -/

mutual
theorem normalizeMetadataValue_sound : ∀ (v : Value), ∀ s ∈ normalizeMetadataValue v,
    NormalizedStr s ∧ s ≠ []
  | .vnone => by simp [normalizeMetadataValue]
  | .vbool _ => by simp [normalizeMetadataValue]
  | .vint _ => by simp [normalizeMetadataValue]
  | .vfloat _ => by simp [normalizeMetadataValue]
  | .vstr s => by
    intro x hx
    rw [normalizeMetadataValue] at hx
    by_cases h : (normalizeText s).isEmpty
    · rw [if_pos h] at hx
      simp at hx
    · rw [if_neg h] at hx
      rcases List.mem_cons.mp hx with rfl | hx'
      · exact ⟨normalizeText_idem s, by simpa using h⟩
      · exact tokenize_sound x hx'
  | .vlist items => normalizeMetadataList_sound items
  | .vdict pairs => normalizeMetadataPairs_sound pairs

theorem normalizeMetadataList_sound : ∀ (l : ValueList), ∀ s ∈ normalizeMetadataList l,
    NormalizedStr s ∧ s ≠ []
  | .nil => by simp [normalizeMetadataList]
  | .cons v rest => by
    intro x hx
    rw [normalizeMetadataList] at hx
    rcases List.mem_append.mp hx with h | h
    · exact normalizeMetadataValue_sound v x h
    · exact normalizeMetadataList_sound rest x h

theorem normalizeMetadataPairs_sound : ∀ (l : ValuePairs), ∀ s ∈ normalizeMetadataPairs l,
    NormalizedStr s ∧ s ≠ []
  | .nil => by simp [normalizeMetadataPairs]
  | .cons k v rest => by
    intro x hx
    rw [normalizeMetadataPairs] at hx
    rcases List.mem_append.mp hx with h | h
    · rcases List.mem_append.mp h with h' | h'
      · exact normalizeMetadataValue_sound k x h'
      · exact normalizeMetadataValue_sound v x h'
    · exact normalizeMetadataPairs_sound rest x h
end

theorem addParts_cons (acc : List Str) (p : Str) (parts : List Str) :
    addParts acc (p :: parts) = addParts (if p.isEmpty then acc else sinsert p acc) parts := by
  unfold addParts
  rw [List.foldl_cons]

theorem mem_addParts {x : Str} : ∀ (parts acc : List Str),
    x ∈ addParts acc parts → x ∈ acc ∨ x ∈ parts
  | [], _, h => Or.inl h
  | p :: parts, acc, h => by
    rw [addParts_cons] at h
    rcases mem_addParts parts _ h with h' | h'
    · by_cases hp : p.isEmpty
      · rw [if_pos hp] at h'
        exact Or.inl h'
      · rw [if_neg hp] at h'
        rcases mem_sinsert.mp h' with rfl | h''
        · exact Or.inr (List.mem_cons_self x parts)
        · exact Or.inl h''
    · exact Or.inr (List.mem_cons_of_mem p h')

theorem nodup_addParts : ∀ (parts acc : List Str), acc.Nodup → (addParts acc parts).Nodup
  | [], _, h => h
  | p :: parts, acc, h => by
    rw [addParts_cons]
    apply nodup_addParts parts
    by_cases hp : p.isEmpty
    · rwa [if_pos hp]
    · rw [if_neg hp]
      exact nodup_sinsert h

theorem metadataValuesOf_sound (metadata : List (Str × Value)) :
    ∀ x ∈ metadataValuesOf metadata, NormalizedStr x ∧ x ≠ [] := by
  have key : ∀ (md : List (Str × Value)) (acc : List Str),
      (∀ x ∈ acc, NormalizedStr x ∧ x ≠ []) →
      ∀ x ∈ md.foldl (fun acc kv =>
        addParts (addParts acc (normalizeMetadataValue (.vstr kv.1)))
          (normalizeMetadataValue kv.2)) acc, NormalizedStr x ∧ x ≠ [] := by
    intro md
    induction md with
    | nil => exact fun acc hacc x hx => hacc x hx
    | cons kv rest ih =>
      intro acc hacc x hx
      rw [List.foldl_cons] at hx
      refine ih _ ?_ x hx
      intro y hy
      rcases mem_addParts _ _ hy with hy1 | hy2
      · rcases mem_addParts _ _ hy1 with hy3 | hy4
        · exact hacc y hy3
        · exact normalizeMetadataValue_sound _ y hy4
      · exact normalizeMetadataValue_sound _ y hy2
  exact key metadata [] (by simp)

theorem nodup_metadataValuesOf (metadata : List (Str × Value)) :
    (metadataValuesOf metadata).Nodup := by
  have key : ∀ (md : List (Str × Value)) (acc : List Str), acc.Nodup →
      (md.foldl (fun acc kv =>
        addParts (addParts acc (normalizeMetadataValue (.vstr kv.1)))
          (normalizeMetadataValue kv.2)) acc).Nodup := by
    intro md
    induction md with
    | nil => exact fun _ h => h
    | cons kv rest ih =>
      intro acc hacc
      rw [List.foldl_cons]
      exact ih _ (nodup_addParts _ _ (nodup_addParts _ _ hacc))
  exact key metadata [] List.nodup_nil

theorem mem_addTag {x : Str} : ∀ (t : Value) (acc : List Str),
    x ∈ addTag acc t → x ∈ acc ∨ (NormalizedStr x ∧ x ≠ []) := by
  intro t acc h
  match t with
  | .vnone | .vbool _ | .vint _ | .vfloat _ | .vlist _ | .vdict _ => exact Or.inl h
  | .vstr s =>
    rw [addTag] at h
    by_cases hp : (pstrip s).isEmpty
    · rw [if_pos hp] at h
      exact Or.inl h
    · rw [if_neg hp] at h
      rcases mem_insertAll _ _ |>.mp h with h' | h'
      · rcases mem_sinsert.mp h' with rfl | h''
        · refine Or.inr ⟨normalizeText_idem _, ?_⟩
          exact normalizeText_ne_nil (pstrip_has_nonspace (by simpa using hp))
        · exact Or.inl h''
      · exact Or.inr (tokenize_sound x h')

theorem nodup_addTag : ∀ (t : Value) (acc : List Str), acc.Nodup → (addTag acc t).Nodup := by
  intro t acc h
  match t with
  | .vnone | .vbool _ | .vint _ | .vfloat _ | .vlist _ | .vdict _ => exact h
  | .vstr s =>
    rw [addTag]
    by_cases hp : (pstrip s).isEmpty
    · rwa [if_pos hp]
    · rw [if_neg hp]
      exact nodup_insertAll _ _ (nodup_sinsert h)

theorem productTagsOf_sound (product_tags : List Value) :
    ∀ x ∈ productTagsOf product_tags, NormalizedStr x ∧ x ≠ [] := by
  have key : ∀ (l : List Value) (acc : List Str),
      (∀ x ∈ acc, NormalizedStr x ∧ x ≠ []) →
      ∀ x ∈ l.foldl addTag acc, NormalizedStr x ∧ x ≠ [] := by
    intro l
    induction l with
    | nil => exact fun acc hacc x hx => hacc x hx
    | cons t rest ih =>
      intro acc hacc x hx
      rw [List.foldl_cons] at hx
      refine ih _ ?_ x hx
      intro y hy
      rcases mem_addTag t acc hy with h | h
      · exact hacc y h
      · exact h
  exact key product_tags [] (by simp)

theorem nodup_productTagsOf (product_tags : List Value) :
    (productTagsOf product_tags).Nodup := by
  have key : ∀ (l : List Value) (acc : List Str), acc.Nodup → (l.foldl addTag acc).Nodup := by
    intro l
    induction l with
    | nil => exact fun _ h => h
    | cons t rest ih =>
      intro acc hacc
      rw [List.foldl_cons]
      exact ih _ (nodup_addTag t acc hacc)
  exact key product_tags [] List.nodup_nil

theorem extract_signals_website_tokens (i : VendorInput) :
    (extract_signals i).website_tokens = mkSet (tokenize (combinedText i)) := by
  show mkSet (tokenize (normalizeText (combinedText i))) = _
  rw [tokenize_normalizeText]

theorem extract_signals_wtn (i : VendorInput) :
    (extract_signals i).website_text_normalized = normalizeText (combinedText i) := rfl

theorem extract_signals_metadata (i : VendorInput) :
    (extract_signals i).metadata_values = metadataValuesOf (i.metadata.getD []) := rfl

theorem extract_signals_tags (i : VendorInput) :
    (extract_signals i).product_tags = productTagsOf (i.product_tags.getD []) := rfl

theorem lowerStr_of_normalized {s : Str} (h : NormalizedStr s) : lowerStr s = s := by
  rw [← h]
  exact lowerStr_normalizeText _

/-! ### Lemmas about the winner-selection fold -/

theorem classifyFold_cons (cid : Str) (s : ℚ) (rest : List (Str × ℚ)) (bc : Str) (b sb : ℚ) :
    classifyFold ((cid, s) :: rest) (bc, b, sb) =
      (if b < s then classifyFold rest (cid, s, b)
       else if sb < s then classifyFold rest (bc, b, s)
       else classifyFold rest (bc, b, sb)) := rfl

theorem classifyFold_best : ∀ (l : List (Str × ℚ)) (bc : Str) (b sb : ℚ),
    (classifyFold l (bc, b, sb)).2.1 = l.foldl (fun m p => max m p.2) b := by
  intro l
  induction l with
  | nil => intros; rfl
  | cons p rest ih =>
    intro bc b sb
    obtain ⟨cid, s⟩ := p
    rw [List.foldl_cons, classifyFold_cons]
    by_cases h1 : b < s
    · rw [if_pos h1, ih, max_eq_right (le_of_lt h1)]
    · rw [if_neg h1]
      by_cases h2 : sb < s
      · rw [if_pos h2, ih, max_eq_left (not_lt.mp h1)]
      · rw [if_neg h2, ih, max_eq_left (not_lt.mp h1)]

theorem foldlMax_init_le : ∀ (l : List (Str × ℚ)) (b : ℚ),
    b ≤ l.foldl (fun m p => max m p.2) b
  | [], b => le_refl b
  | p :: rest, b => by
    rw [List.foldl_cons]
    exact le_trans (le_max_left b p.2) (foldlMax_init_le rest (max b p.2))

theorem foldlMax_mem_le : ∀ (l : List (Str × ℚ)) (b : ℚ) (p : Str × ℚ), p ∈ l →
    p.2 ≤ l.foldl (fun m p => max m p.2) b
  | [], _, _, h => absurd h (List.not_mem_nil _)
  | q :: rest, b, p, h => by
    rw [List.foldl_cons]
    rcases List.mem_cons.mp h with rfl | h'
    · exact le_trans (le_max_right b p.2) (foldlMax_init_le rest _)
    · exact foldlMax_mem_le rest _ p h'

theorem classifyFold_snd : ∀ (l : List (Str × ℚ)) (bc : Str) (b sb : ℚ),
    sb ≤ b → 0 ≤ sb → (∀ p ∈ l, 0 ≤ p.2) →
    (classifyFold l (bc, b, sb)).2.2 ≤ (classifyFold l (bc, b, sb)).2.1 ∧
      0 ≤ (classifyFold l (bc, b, sb)).2.2
  | [], _, _, _, h1, h2, _ => ⟨h1, h2⟩
  | (cid, s) :: rest, bc, b, sb, h1, h2, hl => by
    rw [classifyFold_cons]
    by_cases hb : b < s
    · rw [if_pos hb]
      exact classifyFold_snd rest cid s b (le_of_lt hb) (le_trans h2 h1)
        (fun p hp => hl p (List.mem_cons_of_mem _ hp))
    · rw [if_neg hb]
      by_cases hsb : sb < s
      · rw [if_pos hsb]
        exact classifyFold_snd rest bc b s (not_lt.mp hb) (hl (cid, s) (List.mem_cons_self _ _))
          (fun p hp => hl p (List.mem_cons_of_mem _ hp))
      · rw [if_neg hsb]
        exact classifyFold_snd rest bc b sb h1 h2
          (fun p hp => hl p (List.mem_cons_of_mem _ hp))

theorem classifyFold_fst_mem : ∀ (l : List (Str × ℚ)) (bc : Str) (b sb : ℚ),
    (classifyFold l (bc, b, sb)).1 = bc ∨ (classifyFold l (bc, b, sb)).1 ∈ l.map Prod.fst
  | [], _, _, _ => Or.inl rfl
  | (cid, s) :: rest, bc, b, sb => by
    rw [classifyFold_cons]
    by_cases hb : b < s
    · rw [if_pos hb]
      rcases classifyFold_fst_mem rest cid s b with h | h
      · exact Or.inr (by rw [h]; exact List.mem_cons_self _ _)
      · exact Or.inr (List.mem_cons_of_mem _ h)
    · rw [if_neg hb]
      by_cases hsb : sb < s
      · rw [if_pos hsb]
        rcases classifyFold_fst_mem rest bc b s with h | h
        · exact Or.inl h
        · exact Or.inr (List.mem_cons_of_mem _ h)
      · rw [if_neg hsb]
        rcases classifyFold_fst_mem rest bc b sb with h | h
        · exact Or.inl h
        · exact Or.inr (List.mem_cons_of_mem _ h)

theorem classifyFold_fst_of_le : ∀ (l : List (Str × ℚ)) (bc : Str) (b sb : ℚ),
    (∀ p ∈ l, p.2 ≤ b) → (classifyFold l (bc, b, sb)).1 = bc
  | [], _, _, _, _ => rfl
  | (cid, s) :: rest, bc, b, sb, h => by
    rw [classifyFold_cons, if_neg (not_lt.mpr (h (cid, s) (List.mem_cons_self _ _)))]
    by_cases hsb : sb < s
    · rw [if_pos hsb]
      exact classifyFold_fst_of_le rest bc b s (fun p hp => h p (List.mem_cons_of_mem _ hp))
    · rw [if_neg hsb]
      exact classifyFold_fst_of_le rest bc b sb (fun p hp => h p (List.mem_cons_of_mem _ hp))

theorem foldlMax_cons (cid : Str) (s : ℚ) (rest : List (Str × ℚ)) (b : ℚ) :
    ((cid, s) :: rest).foldl (fun m p => max m p.2) b =
      rest.foldl (fun m p => max m p.2) (max b s) := rfl

theorem classifyFold_fst_find : ∀ (l : List (Str × ℚ)) (bc : Str) (b sb : ℚ),
    b < l.foldl (fun m p => max m p.2) b →
    ∃ pr, l.find? (fun p => decide (p.2 = l.foldl (fun m p => max m p.2) b)) = some pr ∧
      (classifyFold l (bc, b, sb)).1 = pr.1
  | [], _, b, _, h => absurd h (lt_irrefl b)
  | (cid, s) :: rest, bc, b, sb, h => by
    rw [foldlMax_cons] at h
    by_cases hs : s = rest.foldl (fun m p => max m p.2) (max b s)
    · have hbs : b < s := by
        by_contra hb
        have hmax : max b s = b := max_eq_left (not_lt.mp hb)
        rw [hmax] at hs h
        exact hb (hs ▸ h)
      have hmax : max b s = s := max_eq_right (le_of_lt hbs)
      refine ⟨(cid, s), ?_, ?_⟩
      · rw [List.find?_cons_of_pos _ (by rw [foldlMax_cons]; exact decide_eq_true hs)]
      · rw [classifyFold_cons, if_pos hbs]
        exact classifyFold_fst_of_le rest cid s b
          (fun p hp => by
            rw [hs, hmax]
            exact foldlMax_mem_le rest s p hp)
    · have hsle : s ≤ rest.foldl (fun m p => max m p.2) (max b s) :=
        le_trans (le_max_right b s) (foldlMax_init_le rest _)
      have hslt : s < rest.foldl (fun m p => max m p.2) (max b s) := lt_of_le_of_ne hsle hs
      have hfindtail : ∀ pr : Str × ℚ,
          rest.find? (fun p => decide (p.2 = rest.foldl (fun m p => max m p.2) (max b s))) =
            some pr →
          ((cid, s) :: rest).find?
            (fun p => decide (p.2 = ((cid, s) :: rest).foldl (fun m p => max m p.2) b)) =
            some pr := by
        intro pr hfind
        rw [List.find?_cons_of_neg _ (by rw [foldlMax_cons]; simpa using hs), foldlMax_cons]
        exact hfind
      rw [classifyFold_cons]
      by_cases hb : b < s
      · rw [if_pos hb]
        have hmax : max b s = s := max_eq_right (le_of_lt hb)
        rw [hmax] at hslt
        obtain ⟨pr, hfind, hfst⟩ := classifyFold_fst_find rest cid s b hslt
        exact ⟨pr, hfindtail pr (by rw [hmax]; exact hfind), hfst⟩
      · have hmax : max b s = b := max_eq_left (not_lt.mp hb)
        have hblt : b < rest.foldl (fun m p => max m p.2) b := by
          rw [hmax] at h
          exact h
        rw [if_neg hb]
        by_cases hsb : sb < s
        · rw [if_pos hsb]
          obtain ⟨pr, hfind, hfst⟩ := classifyFold_fst_find rest bc b s hblt
          exact ⟨pr, hfindtail pr (by rw [hmax]; exact hfind), hfst⟩
        · rw [if_neg hsb]
          obtain ⟨pr, hfind, hfst⟩ := classifyFold_fst_find rest bc b sb hblt
          exact ⟨pr, hfindtail pr (by rw [hmax]; exact hfind), hfst⟩

/-! ### Lemmas about `classify` and its confidence -/

theorem rawScore_nonneg (cid : Str) (d : CategoryDefinition) (signals : ExtractedSignals) :
    0 ≤ rawScore cid d signals :=
  le_max_left 0 _

theorem scoredCategories_nonneg (signals : ExtractedSignals) :
    ∀ p ∈ scoredCategories signals, 0 ≤ p.2 := by
  intro p hp
  obtain ⟨q, _, rfl⟩ := List.mem_map.mp hp
  exact rawScore_nonneg q.1 q.2 signals

theorem bestRawScore_nonneg (signals : ExtractedSignals) : 0 ≤ bestRawScore signals :=
  foldlMax_init_le _ 0

theorem classify_fst (signals : ExtractedSignals) :
    (classify signals).1 = (classifyFold (scoredCategories signals) (str "Unknown", 0, 0)).1 :=
  rfl

theorem classify_conf (signals : ExtractedSignals) :
    (classify signals).2.1 =
      (if 0 < (classifyFold (scoredCategories signals) (str "Unknown", 0, 0)).2.1 then
        max 0 (min 1 ((classifyFold (scoredCategories signals) (str "Unknown", 0, 0)).2.1 /
          ((classifyFold (scoredCategories signals) (str "Unknown", 0, 0)).2.1 +
            (classifyFold (scoredCategories signals) (str "Unknown", 0, 0)).2.2)))
       else 0) := rfl

theorem classify_confidence_spec (signals : ExtractedSignals) :
    (classifyFold (scoredCategories signals) (str "Unknown", 0, 0)).2.1 = bestRawScore signals ∧
    0 ≤ (classifyFold (scoredCategories signals) (str "Unknown", 0, 0)).2.2 ∧
    (classifyFold (scoredCategories signals) (str "Unknown", 0, 0)).2.2 ≤ bestRawScore signals ∧
    (classify signals).2.1 =
      (if 0 < bestRawScore signals then
        max 0 (min 1 (bestRawScore signals /
          (bestRawScore signals +
            (classifyFold (scoredCategories signals) (str "Unknown", 0, 0)).2.2)))
       else 0) := by
  have hb : (classifyFold (scoredCategories signals) (str "Unknown", 0, 0)).2.1 =
      bestRawScore signals :=
    classifyFold_best (scoredCategories signals) (str "Unknown") 0 0
  have hsnd := classifyFold_snd (scoredCategories signals) (str "Unknown") 0 0 (le_refl 0)
    (le_refl 0) (scoredCategories_nonneg signals)
  refine ⟨hb, hsnd.2, hb ▸ hsnd.1, ?_⟩
  rw [classify_conf, hb]

theorem ratio_le_one {b sb : ℚ} (hb : 0 < b) (hsb : 0 ≤ sb) : b / (b + sb) ≤ 1 := by
  rw [div_le_one (by linarith)]
  linarith

theorem half_le_ratio {b sb : ℚ} (hb : 0 < b) (hsb : 0 ≤ sb) (hle : sb ≤ b) :
    1 / 2 ≤ b / (b + sb) := by
  rw [le_div_iff₀ (by linarith)]
  linarith

theorem classify_conf_of_pos {signals : ExtractedSignals} (hM : 0 < bestRawScore signals) :
    (classify signals).2.1 = bestRawScore signals /
      (bestRawScore signals + (classifyFold (scoredCategories signals) (str "Unknown", 0, 0)).2.2) ∧
    1 / 2 ≤ (classify signals).2.1 ∧ (classify signals).2.1 ≤ 1 := by
  obtain ⟨hb, h0, hle, hconf⟩ := classify_confidence_spec signals
  set sb := (classifyFold (scoredCategories signals) (str "Unknown", 0, 0)).2.2
  have h1 : 1 / 2 ≤ bestRawScore signals / (bestRawScore signals + sb) :=
    half_le_ratio hM h0 (hb ▸ hle)
  have h2 : bestRawScore signals / (bestRawScore signals + sb) ≤ 1 := ratio_le_one hM h0
  have hmin : min 1 (bestRawScore signals / (bestRawScore signals + sb)) =
      bestRawScore signals / (bestRawScore signals + sb) := min_eq_right h2
  have hmax : max 0 (bestRawScore signals / (bestRawScore signals + sb)) =
      bestRawScore signals / (bestRawScore signals + sb) := max_eq_right (by linarith)
  rw [hconf, if_pos hM, hmin, hmax]
  exact ⟨rfl, h1, h2⟩

theorem classify_conf_of_zero {signals : ExtractedSignals} (hM : ¬0 < bestRawScore signals) :
    (classify signals).2.1 = 0 := by
  obtain ⟨_, _, _, hconf⟩ := classify_confidence_spec signals
  rw [hconf, if_neg hM]

/-! ### Lemmas about rounding, the benchmark table and the ranking order -/

theorem pyRound_nonneg {q : ℚ} (h : 0 ≤ q) (nd : Nat) : 0 ≤ pyRound q nd := by
  unfold pyRound
  have hsc : (0:ℚ) < (10:ℚ) ^ nd := by positivity
  have hx : 0 ≤ q * (10:ℚ) ^ nd := by positivity
  have hfl : (0:ℤ) ≤ ⌊q * (10:ℚ) ^ nd⌋ := Int.floor_nonneg.mpr hx
  apply div_nonneg _ (le_of_lt hsc)
  have hn : (0:ℤ) ≤ (if q * 10 ^ nd - ↑⌊q * 10 ^ nd⌋ < 1 / 2 then ⌊q * 10 ^ nd⌋
      else if 1 / 2 < q * 10 ^ nd - ↑⌊q * 10 ^ nd⌋ then ⌊q * 10 ^ nd⌋ + 1
      else if ⌊q * 10 ^ nd⌋ % 2 = 0 then ⌊q * 10 ^ nd⌋ else ⌊q * 10 ^ nd⌋ + 1) := by
    split_ifs <;> omega
  exact_mod_cast hn

theorem pyRound_le_one {q : ℚ} (h1 : q ≤ 1) (nd : Nat) : pyRound q nd ≤ 1 := by
  unfold pyRound
  have hsc : (0:ℚ) < (10:ℚ) ^ nd := by positivity
  have hSZ : (10:ℚ) ^ nd = (((10:ℤ) ^ nd : ℤ) : ℚ) := by push_cast; ring
  have hxS : q * (10:ℚ) ^ nd ≤ (10:ℚ) ^ nd := by nlinarith
  have hfS : ⌊(10:ℚ) ^ nd⌋ = (10:ℤ) ^ nd := by rw [hSZ, Int.floor_intCast]
  have hfl_le : ⌊q * (10:ℚ) ^ nd⌋ ≤ (10:ℤ) ^ nd := by
    have h' := Int.floor_mono hxS
    rwa [hfS] at h'
  rw [div_le_one hsc]
  by_cases hcase : ⌊q * (10:ℚ) ^ nd⌋ = (10:ℤ) ^ nd
  · have hxeq : q * (10:ℚ) ^ nd = (10:ℚ) ^ nd := by
      refine le_antisymm hxS ?_
      have h' := Int.floor_le (q * (10:ℚ) ^ nd)
      rw [hcase, ← hSZ] at h'
      exact h'
    have hcond : q * (10:ℚ) ^ nd - (⌊q * (10:ℚ) ^ nd⌋ : ℚ) < 1 / 2 := by
      rw [hcase, hxeq, ← hSZ]
      norm_num
    rw [if_pos hcond, hcase, ← hSZ]
  · have hlt : ⌊q * (10:ℚ) ^ nd⌋ + 1 ≤ (10:ℤ) ^ nd := by omega
    have hle1 : ((⌊q * (10:ℚ) ^ nd⌋ : ℤ) : ℚ) ≤ (10:ℚ) ^ nd := by
      rw [hSZ]
      exact_mod_cast hfl_le
    have hle2 : ((⌊q * (10:ℚ) ^ nd⌋ + 1 : ℤ) : ℚ) ≤ (10:ℚ) ^ nd := by
      rw [hSZ]
      exact_mod_cast hlt
    split_ifs <;> first | exact hle1 | exact hle2

theorem lookup_mem_values {β : Type} : ∀ (l : List (Str × β)) (k : Str) (v : β),
    l.lookup k = some v → v ∈ l.map Prod.snd := by
  intro l
  induction l with
  | nil => intro k v h; simp [List.lookup] at h
  | cons p rest ih =>
    intro k v h
    obtain ⟨a, b⟩ := p
    by_cases hk : k == a
    · simp only [List.lookup, hk] at h
      rw [List.map_cons]
      exact (Option.some.injEq _ _ ▸ h) ▸ List.mem_cons_self b _
    · simp only [List.lookup, hk] at h
      exact List.mem_cons_of_mem _ (ih k v h)

theorem rank_def (category vendor_name : Str) (signals : ExtractedSignals) (top_n : Int) :
    rank_products_for_category category vendor_name signals top_n =
      (if ((CATEGORY_TO_PRODUCTS.lookup category).getD []).isEmpty = true ∨ top_n ≤ 0 then []
       else (((((CATEGORY_TO_PRODUCTS.lookup category).getD []).map
         (fun product => scoreProduct product (normalizeText vendor_name)
           signals.website_text_normalized signals.website_tokens)).mergeSort rankLe).take
             top_n.toNat)) := rfl

theorem rank_length (category vendor_name : Str) (signals : ExtractedSignals) (top_n : Int) :
    (rank_products_for_category category vendor_name signals top_n).length ≤ top_n.toNat := by
  rw [rank_def]
  split
  · simp
  · rw [List.length_take]
    exact min_le_left _ _

theorem strLe_cons_iff {a b : Nat} {s t : Str} :
    strLe (a :: s) (b :: t) = true ↔ a < b ∨ (a = b ∧ strLe s t = true) := by
  rw [strLe]
  split_ifs with h1 h2
  · simp [h1]
  · constructor
    · intro h
      cases h
    · rintro (h | ⟨rfl, _⟩)
      · exact absurd h h1
      · exact absurd h2 (lt_irrefl a)
  · have hab : a = b := by omega
    simp [hab, h1]

theorem strLe_total : ∀ (s t : Str), strLe s t = true ∨ strLe t s = true
  | [], _ => Or.inl rfl
  | _ :: _, [] => Or.inr rfl
  | a :: s, b :: t => by
    rcases Nat.lt_trichotomy a b with h | h | h
    · exact Or.inl (strLe_cons_iff.mpr (Or.inl h))
    · rcases strLe_total s t with h' | h'
      · exact Or.inl (strLe_cons_iff.mpr (Or.inr ⟨h, h'⟩))
      · exact Or.inr (strLe_cons_iff.mpr (Or.inr ⟨h.symm, h'⟩))
    · exact Or.inr (strLe_cons_iff.mpr (Or.inl h))

theorem strLe_trans : ∀ (s t u : Str), strLe s t = true → strLe t u = true → strLe s u = true
  | [], _, _, _, _ => rfl
  | _ :: _, [], _, h, _ => by cases h
  | _ :: _, _ :: _, [], _, h => by cases h
  | a :: s, b :: t, c :: u, h1, h2 => by
    rcases strLe_cons_iff.mp h1 with hab | ⟨rfl, hst⟩
    · rcases strLe_cons_iff.mp h2 with hbc | ⟨rfl, _⟩
      · exact strLe_cons_iff.mpr (Or.inl (lt_trans hab hbc))
      · exact strLe_cons_iff.mpr (Or.inl hab)
    · rcases strLe_cons_iff.mp h2 with hbc | ⟨rfl, htu⟩
      · exact strLe_cons_iff.mpr (Or.inl hbc)
      · exact strLe_cons_iff.mpr (Or.inr ⟨rfl, strLe_trans s t u hst htu⟩)

theorem rankLe_iff {p q : RankedProduct} : rankLe p q = true ↔ rankOrder p q := by
  unfold rankLe rankOrder
  rw [Bool.or_eq_true, Bool.and_eq_true, decide_eq_true_eq, decide_eq_true_eq]

theorem rankLe_trans (a b c : RankedProduct) :
    rankLe a b = true → rankLe b c = true → rankLe a c = true := by
  intro h1 h2
  rw [rankLe_iff] at h1 h2 ⊢
  rcases h1 with h1 | ⟨he1, hs1⟩
  · rcases h2 with h2 | ⟨he2, _⟩
    · exact Or.inl (lt_trans h2 h1)
    · exact Or.inl (he2 ▸ h1)
  · rcases h2 with h2 | ⟨he2, hs2⟩
    · exact Or.inl (he1 ▸ h2)
    · exact Or.inr ⟨he1.trans he2, strLe_trans _ _ _ hs1 hs2⟩

theorem rankLe_total (a b : RankedProduct) : (rankLe a b || rankLe b a) = true := by
  rw [Bool.or_eq_true, rankLe_iff, rankLe_iff]
  unfold rankOrder
  rcases lt_trichotomy a.score b.score with h | h | h
  · exact Or.inr (Or.inl h)
  · rcases strLe_total (lowerStr a.name) (lowerStr b.name) with h' | h'
    · exact Or.inl (Or.inr ⟨h, h'⟩)
    · exact Or.inr (Or.inr ⟨h.symm, h'⟩)
  · exact Or.inl (Or.inl h)

/-! ### Monotonicity of the raw score -/

theorem sum_le_sum_of_subset {s t : List Str} (f : Str → ℚ)
    (hsub : ∀ x ∈ s, x ∈ t) (hs : s.Nodup) (ht : t.Nodup) (hf : ∀ x, 0 ≤ f x) :
    (s.map f).sum ≤ (t.map f).sum := by
  rw [← List.sum_toFinset f hs, ← List.sum_toFinset f ht]
  apply Finset.sum_le_sum_of_subset_of_nonneg
  · intro x hx
    exact List.mem_toFinset.mpr (hsub x (List.mem_toFinset.mp hx))
  · exact fun i _ _ => hf i

theorem sum_eq_sum_of_zero_outside {s t : List Str} (f : Str → ℚ)
    (hsub : ∀ x ∈ s, x ∈ t) (hs : s.Nodup) (ht : t.Nodup)
    (hzero : ∀ x ∈ t, x ∉ s → f x = 0) :
    (t.map f).sum = (s.map f).sum := by
  rw [← List.sum_toFinset f hs, ← List.sum_toFinset f ht]
  exact (Finset.sum_subset
    (fun x hx => List.mem_toFinset.mpr (hsub x (List.mem_toFinset.mp hx)))
    (fun x hx hnx => hzero x (List.mem_toFinset.mp hx)
      (fun h => hnx (List.mem_toFinset.mpr h)))).symm

theorem websiteTokenScore_mono (cid : Str) (ks : List Str) {t0 t1 : List Str}
    (hsub : ∀ x ∈ t0, x ∈ t1) (h0 : t0.Nodup) (h1 : t1.Nodup) :
    websiteTokenScore cid ks t0 ≤ websiteTokenScore cid ks t1 := by
  apply sum_le_sum_of_subset _ hsub h0 h1
  intro x
  split_ifs <;> norm_num [WEIGHT_WEBSITE_KEYWORD, GENERIC_PAYMENTS_TOKEN_MULTIPLIER]

theorem websitePhraseScore_mono (kws : List Str) {n0 n1 : Str} (hinf : n0 <:+: n1) :
    websitePhraseScore kws n0 ≤ websitePhraseScore kws n1 := by
  apply List.sum_le_sum
  intro kw _
  dsimp only
  split_ifs with hc0 hc1
  · exact le_refl _
  · exact absurd ⟨hc0.1, hc0.2.trans hinf⟩ hc1
  · norm_num [WEIGHT_WEBSITE_PHRASE]
  · exact le_refl _

theorem negativePenalty_eq (neg : List Str) {s0 s1 : ExtractedSignals}
    (hmv : s1.metadata_values = s0.metadata_values)
    (hpt : s1.product_tags = s0.product_tags)
    (hsub : ∀ x ∈ s0.website_tokens, x ∈ s1.website_tokens)
    (h0 : s0.website_tokens.Nodup) (h1 : s1.website_tokens.Nodup)
    (hnew : ∀ t ∈ s1.website_tokens, t ∉ s0.website_tokens → t ∉ neg) :
    negativePenalty neg s1 = negativePenalty neg s0 := by
  unfold negativePenalty
  rw [hmv, hpt]
  congr 2
  apply sum_eq_sum_of_zero_outside _ hsub h0 h1
  intro x hx hnx
  rw [if_neg (hnew x hx hnx)]

theorem rawScore_eq (cid : Str) (d : CategoryDefinition) (sig : ExtractedSignals) :
    rawScore cid d sig = max 0
      (websiteTokenScore cid (categoryKeywordsNormalized d.keywords) sig.website_tokens
        + websitePhraseScore d.keywords sig.website_text_normalized
        + metadataScore (categoryKeywordsNormalized d.metadata_triggers) sig.metadata_values
        + productTagScore (categoryKeywordsNormalized d.keywords)
            (categoryKeywordsNormalized d.metadata_triggers) sig.product_tags
        - negativePenalty (categoryKeywordsNormalized d.negative_signals) sig) := rfl

theorem rawScore_mono (cid : Str) (d : CategoryDefinition) {s0 s1 : ExtractedSignals}
    (hmv : s1.metadata_values = s0.metadata_values)
    (hpt : s1.product_tags = s0.product_tags)
    (hsub : ∀ x ∈ s0.website_tokens, x ∈ s1.website_tokens)
    (h0 : s0.website_tokens.Nodup) (h1 : s1.website_tokens.Nodup)
    (hnew : ∀ t ∈ s1.website_tokens, t ∉ s0.website_tokens →
      t ∉ categoryKeywordsNormalized d.negative_signals)
    (htext : s0.website_text_normalized <:+: s1.website_text_normalized) :
    rawScore cid d s0 ≤ rawScore cid d s1 := by
  rw [rawScore_eq, rawScore_eq, hmv, hpt]
  apply max_le_max (le_refl 0)
  have htok := websiteTokenScore_mono cid (categoryKeywordsNormalized d.keywords) hsub h0 h1
  have hph := websitePhraseScore_mono d.keywords htext
  have hneg := negativePenalty_eq (categoryKeywordsNormalized d.negative_signals)
    hmv hpt hsub h0 h1 hnew
  rw [hneg]
  linarith

theorem getOrEmpty_of_blank {o : Option Str} (h : o = none ∨ o = some []) :
    getOrEmpty o = [] := by
  rcases h with rfl | rfl <;> rfl

theorem combinedText_texts (i : VendorInput)
    (hdesc : getOrEmpty i.description = []) (hname : getOrEmpty i.name = []) :
    combinedText i = (if (getOrEmpty i.website_text).isEmpty then [] else getOrEmpty i.website_text) := by
  unfold combinedText
  rw [hdesc, hname]
  by_cases h : (getOrEmpty i.website_text).isEmpty
  · rw [if_pos h]
    simp [List.filter, h]
    rfl
  · rw [if_neg h]
    simp [List.filter, h]
    rfl

theorem tokenize_if_blank (wt : Str) :
    tokenize (if wt.isEmpty then [] else wt) = tokenize wt := by
  by_cases h : wt.isEmpty
  · rw [if_pos h, List.isEmpty_iff.mp h]
  · rw [if_neg h]

theorem augText_ne_blank (wt kw : Str) : (wt ++ 32 :: kw).isEmpty = false := by
  cases wt <;> rfl

theorem subOfPre {a b : Str} (h : a <+: b) : a <:+: b := by
  obtain ⟨t, ht⟩ := h
  exact ⟨[], t, by simpa using ht⟩

theorem norm_prefixes_aug (wt kw : Str) :
    normalizeText wt <+: normalizeText (wt ++ 32 :: kw) := by
  rw [normalizeText_append_space]
  have hwt : normalizeText wt = joinSp (words (lowerStr wt)) := rfl
  rcases hA : words (lowerStr wt) with _ | ⟨a, A⟩
  · rw [hwt, hA]
    exact List.nil_prefix
  · rcases hB : words (lowerStr kw) with _ | ⟨b, B⟩
    · rw [List.append_nil, hwt, hA]
    · rw [joinSp_append _ (by simp) _ (by simp), hwt, hA]
      exact ⟨32 :: joinSp (b :: B), rfl⟩

/-- No token of any taxonomy keyword is a negative signal of its own
    category (checked by evaluation over the whole taxonomy). -/
theorem taxonomy_keywords_not_negative :
    ∀ pd ∈ get_taxonomy, ∀ kw ∈ pd.2.keywords, ∀ t ∈ tokenize kw,
      t ∉ categoryKeywordsNormalized pd.2.negative_signals := by decide

theorem normalizeText_if_blank (wt : Str) :
    normalizeText (if wt.isEmpty then [] else wt) = normalizeText wt := by
  by_cases h : wt.isEmpty
  · rw [if_pos h, List.isEmpty_iff.mp h]
  · rw [if_neg h]

theorem augment_fields (i : VendorInput) (kw : Str) :
    (augmentWebsiteText i kw).metadata = i.metadata ∧
    (augmentWebsiteText i kw).product_tags = i.product_tags ∧
    (augmentWebsiteText i kw).description = i.description ∧
    (augmentWebsiteText i kw).name = i.name ∧
    getOrEmpty (augmentWebsiteText i kw).website_text = getOrEmpty i.website_text ++ 32 :: kw :=
  ⟨rfl, rfl, rfl, rfl, rfl⟩

theorem tokenize_combined_base (i : VendorInput)
    (hdesc : i.description = none ∨ i.description = some [])
    (hname : i.name = none ∨ i.name = some []) :
    tokenize (combinedText i) = tokenize (getOrEmpty i.website_text) := by
  rw [combinedText_texts i (getOrEmpty_of_blank hdesc) (getOrEmpty_of_blank hname),
    tokenize_if_blank]

theorem combined_aug (i : VendorInput) (kw : Str)
    (hdesc : i.description = none ∨ i.description = some [])
    (hname : i.name = none ∨ i.name = some []) :
    combinedText (augmentWebsiteText i kw) = getOrEmpty i.website_text ++ 32 :: kw := by
  rw [combinedText_texts (augmentWebsiteText i kw)
    (getOrEmpty_of_blank ((augment_fields i kw).2.2.1 ▸ hdesc))
    (getOrEmpty_of_blank ((augment_fields i kw).2.2.2.1 ▸ hname)),
    (augment_fields i kw).2.2.2.2, if_neg (by rw [augText_ne_blank]; simp)]

theorem websiteTokens_aug (i : VendorInput) (kw : Str)
    (hdesc : i.description = none ∨ i.description = some [])
    (hname : i.name = none ∨ i.name = some []) :
    (extract_signals i).website_tokens = mkSet (tokenize (getOrEmpty i.website_text)) ∧
    (extract_signals (augmentWebsiteText i kw)).website_tokens =
      mkSet (tokenize (getOrEmpty i.website_text) ++ tokenize kw) := by
  constructor
  · rw [extract_signals_website_tokens, tokenize_combined_base i hdesc hname]
  · rw [extract_signals_website_tokens, combined_aug i kw hdesc hname, tokenize_append_space]

theorem wtn_aug (i : VendorInput) (kw : Str)
    (hdesc : i.description = none ∨ i.description = some [])
    (hname : i.name = none ∨ i.name = some []) :
    (extract_signals i).website_text_normalized <:+:
      (extract_signals (augmentWebsiteText i kw)).website_text_normalized := by
  rw [extract_signals_wtn, extract_signals_wtn, combined_aug i kw hdesc hname,
    combinedText_texts i (getOrEmpty_of_blank hdesc) (getOrEmpty_of_blank hname),
    normalizeText_if_blank]
  exact subOfPre (norm_prefixes_aug _ kw)

/-! ### The claims -/

/-- C9: for every vendor input, every string in `website_tokens`,
    `metadata_values` and `product_tags` is lowercase,
    whitespace-normalized and non-empty, and the sets are duplicate-free. -/
theorem C9_signal_invariants (input : VendorInput) :
    (∀ s ∈ (extract_signals input).website_tokens, lowerStr s = s ∧ NormalizedStr s ∧ s ≠ []) ∧
    (∀ s ∈ (extract_signals input).metadata_values, lowerStr s = s ∧ NormalizedStr s ∧ s ≠ []) ∧
    (∀ s ∈ (extract_signals input).product_tags, lowerStr s = s ∧ NormalizedStr s ∧ s ≠ []) ∧
    (extract_signals input).website_tokens.Nodup ∧
    (extract_signals input).metadata_values.Nodup ∧
    (extract_signals input).product_tags.Nodup := by
  refine ⟨?_, ?_, ?_, ?_, ?_, ?_⟩
  · intro s hs
    rw [extract_signals_website_tokens] at hs
    obtain ⟨hn, hne⟩ := tokenize_sound s (mem_mkSet.mp hs)
    exact ⟨lowerStr_of_normalized hn, hn, hne⟩
  · intro s hs
    rw [extract_signals_metadata] at hs
    obtain ⟨hn, hne⟩ := metadataValuesOf_sound _ s hs
    exact ⟨lowerStr_of_normalized hn, hn, hne⟩
  · intro s hs
    rw [extract_signals_tags] at hs
    obtain ⟨hn, hne⟩ := productTagsOf_sound _ s hs
    exact ⟨lowerStr_of_normalized hn, hn, hne⟩
  · rw [extract_signals_website_tokens]
    exact nodup_mkSet
  · rw [extract_signals_metadata]
    exact nodup_metadataValuesOf _
  · rw [extract_signals_tags]
    exact nodup_productTagsOf _

set_option maxRecDepth 200000 in
theorem C9_signal_invariants_witness :
    str "payment" ∈ (extract_signals stripeInput).website_tokens ∧
    (lowerStr (str "payment") = str "payment" ∧ NormalizedStr (str "payment") ∧
      str "payment" ≠ ([] : Str)) ∧
    str "payments" ∈ (extract_signals stripeInput).product_tags ∧
    (lowerStr (str "payments") = str "payments" ∧ NormalizedStr (str "payments") ∧
      str "payments" ≠ ([] : Str)) ∧
    (extract_signals stripeInput).website_tokens.Nodup :=
  ⟨by decide, (C9_signal_invariants stripeInput).1 (str "payment") (by decide),
   by decide, (C9_signal_invariants stripeInput).2.2.1 (str "payments") (by decide),
   (C9_signal_invariants stripeInput).2.2.2.1⟩

/-- C10: the confidence returned by `classify` is either exactly 0 or at
    least 1/2 — nothing strictly between, because the second-best raw
    score never exceeds the best. -/
theorem C10_confidence_gap (signals : ExtractedSignals) :
    (classify signals).2.1 = 0 ∨ 1 / 2 ≤ (classify signals).2.1 := by
  by_cases hM : 0 < bestRawScore signals
  · exact Or.inr (classify_conf_of_pos hM).2.1
  · exact Or.inl (classify_conf_of_zero hM)

/-- C2: the confidence of `classify` lies in [0,1]; it is 0 iff the best
    raw score is 0; and when the best score is positive it equals
    best / (best + second_best) clamped into [0,1], where best is the
    maximal per-category raw score. -/
theorem C2_confidence_bounds (signals : ExtractedSignals) :
    0 ≤ (classify signals).2.1 ∧ (classify signals).2.1 ≤ 1 ∧
    ((classify signals).2.1 = 0 ↔ bestRawScore signals = 0) ∧
    (0 < bestRawScore signals →
      (classifyFold (scoredCategories signals) (str "Unknown", 0, 0)).2.1 = bestRawScore signals ∧
      (classify signals).2.1 = max 0 (min 1 (bestRawScore signals /
        (bestRawScore signals +
          (classifyFold (scoredCategories signals) (str "Unknown", 0, 0)).2.2)))) := by
  by_cases hM : 0 < bestRawScore signals
  · obtain ⟨heq, hhalf, hone⟩ := classify_conf_of_pos hM
    obtain ⟨hb, h0, hle, hconf⟩ := classify_confidence_spec signals
    refine ⟨by linarith, hone, ⟨fun h => by linarith, fun h => absurd (h ▸ hM) (lt_irrefl 0)⟩,
      fun _ => ⟨hb, by rw [hconf, if_pos hM]⟩⟩
  · have hz := classify_conf_of_zero hM
    have hM0 : bestRawScore signals = 0 :=
      le_antisymm (not_lt.mp hM) (bestRawScore_nonneg signals)
    exact ⟨by rw [hz], by rw [hz]; norm_num, by rw [hz, hM0], fun h => absurd h hM⟩

set_option maxRecDepth 200000 in
theorem C2_confidence_bounds_witness :
    0 < bestRawScore crmSignals ∧
    (classifyFold (scoredCategories crmSignals) (str "Unknown", 0, 0)).2.1 =
      bestRawScore crmSignals ∧
    (classify crmSignals).2.1 = max 0 (min 1 (bestRawScore crmSignals /
      (bestRawScore crmSignals +
        (classifyFold (scoredCategories crmSignals) (str "Unknown", 0, 0)).2.2))) :=
  ⟨by with_unfolding_all decide,
   (C2_confidence_bounds crmSignals).2.2.2 (by with_unfolding_all decide)⟩

/-- C3: winner selection keeps the first category (in taxonomy
    enumeration order) whose raw score equals the maximum, so equal
    scores favour the earlier-enumerated category; when every raw score
    is 0 the winner is the sentinel "Unknown". -/
theorem C3_winner_selection (signals : ExtractedSignals) :
    ((∀ p ∈ scoredCategories signals, p.2 = 0) → (classify signals).1 = str "Unknown") ∧
    (0 < bestRawScore signals →
      ((scoredCategories signals).find?
        (fun p => decide (p.2 = bestRawScore signals))).map Prod.fst =
        some ((classify signals).1)) := by
  constructor
  · intro h
    rw [classify_fst]
    exact classifyFold_fst_of_le _ _ _ _ (fun p hp => le_of_eq (h p hp))
  · intro hM
    have hM' : (0:ℚ) < (scoredCategories signals).foldl (fun m p => max m p.2) 0 := hM
    obtain ⟨pr, hfind, hfst⟩ :=
      classifyFold_fst_find (scoredCategories signals) (str "Unknown") 0 0 hM'
    have hfind' : (scoredCategories signals).find?
        (fun p => decide (p.2 = bestRawScore signals)) = some pr := hfind
    rw [classify_fst, hfst, hfind']
    rfl

set_option maxRecDepth 200000 in
theorem C3_winner_selection_witness :
    ((∀ p ∈ scoredCategories emptySignals, p.2 = 0) ∧
      (classify emptySignals).1 = str "Unknown") ∧
    (0 < bestRawScore crmSignals ∧
      ((scoredCategories crmSignals).find?
        (fun p => decide (p.2 = bestRawScore crmSignals))).map Prod.fst =
        some ((classify crmSignals).1)) :=
  ⟨⟨by with_unfolding_all decide,
    (C3_winner_selection emptySignals).1 (by with_unfolding_all decide)⟩,
   ⟨by with_unfolding_all decide,
    (C3_winner_selection crmSignals).2 (by with_unfolding_all decide)⟩⟩

theorem classify_conf_mem (signals : ExtractedSignals) :
    0 ≤ (classify signals).2.1 ∧ (classify signals).2.1 ≤ 1 := by
  by_cases hM : 0 < bestRawScore signals
  · obtain ⟨_, hhalf, hone⟩ := classify_conf_of_pos hM
    exact ⟨by linarith, hone⟩
  · rw [classify_conf_of_zero hM]
    norm_num

theorem scoredCategories_fst (signals : ExtractedSignals) :
    (scoredCategories signals).map Prod.fst = get_taxonomy.map Prod.fst := by
  unfold scoredCategories
  rw [List.map_map]
  exact List.map_congr_left (fun p _ => rfl)

/-- C4: `classify_saas` is a total function: every well-typed input
    (missing fields, wrong-typed metadata values, empty strings, unknown
    categories) yields a normal result whose confidence is in [0,1],
    whose category and benchmark key come from the fixed tables (or the
    sentinels), and whose top-products list has at most 3 entries;
    malformed metadata pieces (None, bools, numbers) contribute zero
    signal rather than an error. -/
theorem C4_total_function (input : VendorInput) :
    0 ≤ (classify_saas input).confidence ∧ (classify_saas input).confidence ≤ 1 ∧
    ((classify_saas input).category = str "Unknown" ∨
      (classify_saas input).category ∈ get_taxonomy.map Prod.fst) ∧
    ((classify_saas input).benchmark_key = DEFAULT_BENCHMARK_KEY ∨
      (classify_saas input).benchmark_key ∈ CATEGORY_TO_BENCHMARK.map Prod.snd) ∧
    (classify_saas input).category_profile.top_products.length ≤ 3 ∧
    normalizeMetadataValue .vnone = [] ∧
    (∀ b, normalizeMetadataValue (.vbool b) = []) ∧
    (∀ n, normalizeMetadataValue (.vint n) = []) ∧
    (∀ q, normalizeMetadataValue (.vfloat q) = []) := by
  have hc : (classify_saas input).confidence =
      pyRound ((classify (extract_signals input)).2.1) 4 := rfl
  obtain ⟨h0, h1⟩ := classify_conf_mem (extract_signals input)
  refine ⟨?_, ?_, ?_, ?_, ?_, rfl, fun _ => rfl, fun _ => rfl, fun _ => rfl⟩
  · rw [hc]
    exact pyRound_nonneg h0 4
  · rw [hc]
    exact pyRound_le_one h1 4
  · have hcat : (classify_saas input).category = (classify (extract_signals input)).1 := rfl
    rw [hcat, classify_fst]
    rcases classifyFold_fst_mem (scoredCategories (extract_signals input))
      (str "Unknown") 0 0 with h | h
    · exact Or.inl h
    · exact Or.inr (scoredCategories_fst (extract_signals input) ▸ h)
  · have hbk : (classify_saas input).benchmark_key =
        get_benchmark_key (classify (extract_signals input)).1 := rfl
    rw [hbk]
    unfold get_benchmark_key
    rcases hcase : CATEGORY_TO_BENCHMARK.lookup (classify (extract_signals input)).1 with _ | k
    · exact Or.inl rfl
    · exact Or.inr (lookup_mem_values _ _ _ hcase)
  · have htp : (classify_saas input).category_profile.top_products =
        rank_products_for_category (classify (extract_signals input)).1
          (getOrEmpty input.name) (extract_signals input) 3 := rfl
    rw [htp]
    exact rank_length _ _ _ 3

set_option maxRecDepth 1000000 in
/-- C5: the Stripe scenario input is classified as "Payments" with
    benchmark key "fintech_benchmark_v1" and confidence above 0.5. -/
theorem C5_stripe_scenario :
    (classify_saas stripeInput).category = str "Payments" ∧
    (classify_saas stripeInput).benchmark_key = str "fintech_benchmark_v1" ∧
    1 / 2 < (classify_saas stripeInput).confidence := by
  with_unfolding_all decide

set_option maxRecDepth 200000 in
/-- C1: an input whose text fields, product tags and metadata are all
    empty or absent is classified as "Unknown" with confidence 0.0,
    benchmark key "general_saas_benchmark_v1" and an empty top_products
    list in the category profile. -/
theorem C1_empty_input_defaults (input : VendorInput)
    (hw : input.website_text = none ∨ input.website_text = some [])
    (hd : input.description = none ∨ input.description = some [])
    (hn : input.name = none ∨ input.name = some [])
    (ht : input.product_tags = none ∨ input.product_tags = some [])
    (hm : input.metadata = none ∨ input.metadata = some []) :
    classify_saas input =
      { category := str "Unknown", confidence := 0,
        benchmark_key := str "general_saas_benchmark_v1",
        category_profile :=
          { category_name := str "Unknown", confidence := 0, top_products := [] } } := by
  obtain ⟨wt, de, nm, tg, md⟩ := input
  simp only at hw hd hn ht hm
  rcases hw with rfl | rfl <;> rcases hd with rfl | rfl <;> rcases hn with rfl | rfl <;>
    rcases ht with rfl | rfl <;> rcases hm with rfl | rfl <;> with_unfolding_all decide

set_option maxRecDepth 200000 in
theorem C1_empty_input_defaults_witness :
    (({} : VendorInput).website_text = none ∨ ({} : VendorInput).website_text = some []) ∧
    (({} : VendorInput).description = none ∨ ({} : VendorInput).description = some []) ∧
    (({} : VendorInput).name = none ∨ ({} : VendorInput).name = some []) ∧
    (({} : VendorInput).product_tags = none ∨ ({} : VendorInput).product_tags = some []) ∧
    (({} : VendorInput).metadata = none ∨ ({} : VendorInput).metadata = some []) ∧
    classify_saas {} =
      { category := str "Unknown", confidence := 0,
        benchmark_key := str "general_saas_benchmark_v1",
        category_profile :=
          { category_name := str "Unknown", confidence := 0, top_products := [] } } :=
  ⟨Or.inl rfl, Or.inl rfl, Or.inl rfl, Or.inl rfl, Or.inl rfl,
   C1_empty_input_defaults {} (Or.inl rfl) (Or.inl rfl) (Or.inl rfl) (Or.inl rfl) (Or.inl rfl)⟩

set_option maxRecDepth 400000 in
/-- C6 counterexample: "billing" is a keyword of the first taxonomy
    category ("Payments"), and appending one occurrence of it to the
    website text of `c6Base` strictly decreases the Payments raw score
    (the appended word breaks the cross-field phrase match
    "payment processing"), refuting the claim as stated. -/
theorem C6_counterexample :
    taxonomyHead.1 = str "Payments" ∧
    (taxonomyHead.1, taxonomyHead.2) ∈ get_taxonomy ∧
    str "billing" ∈ taxonomyHead.2.keywords ∧
    c6Aug = augmentWebsiteText c6Base (str "billing") ∧
    rawScore taxonomyHead.1 taxonomyHead.2 (extract_signals c6Aug) <
      rawScore taxonomyHead.1 taxonomyHead.2 (extract_signals c6Base) := by
  refine ⟨by decide, by decide, by decide, rfl, by with_unfolding_all decide⟩

/-- C6 (amended): for a vendor input whose description and name are
    empty or absent, appending an occurrence of a keyword of a taxonomy
    category C to the website text never decreases C's raw score. -/
theorem C6_monotonic_amended (input : VendorInput) (cid : Str) (d : CategoryDefinition)
    (kw : Str) (hcd : (cid, d) ∈ get_taxonomy) (hkw : kw ∈ d.keywords)
    (hdesc : input.description = none ∨ input.description = some [])
    (hname : input.name = none ∨ input.name = some []) :
    rawScore cid d (extract_signals input) ≤
      rawScore cid d (extract_signals (augmentWebsiteText input kw)) := by
  obtain ⟨hS0, hS1⟩ := websiteTokens_aug input kw hdesc hname
  apply rawScore_mono cid d
  · rfl
  · rfl
  · intro x hx
    rw [hS1, mem_mkSet]
    rw [hS0, mem_mkSet] at hx
    exact List.mem_append.mpr (Or.inl hx)
  · rw [hS0]
    exact nodup_mkSet
  · rw [hS1]
    exact nodup_mkSet
  · intro t ht hnt
    rw [hS1, mem_mkSet] at ht
    rw [hS0, mem_mkSet] at hnt
    rcases List.mem_append.mp ht with h | h
    · exact absurd h hnt
    · exact taxonomy_keywords_not_negative (cid, d) hcd kw hkw t h
  · exact wtn_aug input kw hdesc hname

set_option maxRecDepth 400000 in
theorem C6_monotonic_amended_witness :
    (taxonomyHead.1, taxonomyHead.2) ∈ get_taxonomy ∧
    str "billing" ∈ taxonomyHead.2.keywords ∧
    (c6Solo.description = none ∨ c6Solo.description = some []) ∧
    (c6Solo.name = none ∨ c6Solo.name = some []) ∧
    rawScore taxonomyHead.1 taxonomyHead.2 (extract_signals c6Solo) ≤
      rawScore taxonomyHead.1 taxonomyHead.2
        (extract_signals (augmentWebsiteText c6Solo (str "billing"))) :=
  ⟨by decide, by decide, Or.inl rfl, Or.inl rfl,
   C6_monotonic_amended c6Solo taxonomyHead.1 taxonomyHead.2 (str "billing")
     (by decide) (by decide) (Or.inl rfl) (Or.inl rfl)⟩

theorem websiteTokens_single (t : Str) :
    (extract_signals { website_text := some t }).website_tokens = mkSet (tokenize t) := by
  rw [extract_signals_website_tokens,
    tokenize_combined_base { website_text := some t } (Or.inl rfl) (Or.inl rfl)]
  rfl

set_option maxRecDepth 200000 in
/-- C7: extraction is invariant under casing, whitespace and
    duplication — "Payment PAYMENT payment" and "payment" both yield
    website_tokens {"payment"}; normalizing the text or repeating it
    does not change the token set; and the tags ["Payments","payments"]
    yield the single product tag "payments". -/
theorem C7_extraction_invariance :
    (extract_signals { website_text := some (str "Payment PAYMENT payment") }).website_tokens =
      [str "payment"] ∧
    (extract_signals { website_text := some (str "payment") }).website_tokens =
      [str "payment"] ∧
    (∀ t : Str, (extract_signals { website_text := some t }).website_tokens =
      (extract_signals { website_text := some (normalizeText t) }).website_tokens) ∧
    (∀ t : Str, (extract_signals { website_text := some (t ++ 32 :: t) }).website_tokens =
      (extract_signals { website_text := some t }).website_tokens) ∧
    (extract_signals
      { product_tags := some [.vstr (str "Payments"), .vstr (str "payments")] }).product_tags =
      [str "payments"] := by
  refine ⟨by decide, by decide, ?_, ?_, by decide⟩
  · intro t
    rw [websiteTokens_single, websiteTokens_single, tokenize_normalizeText]
  · intro t
    rw [websiteTokens_single, websiteTokens_single, tokenize_append_space, mkSet_append_self]

/-- C8: the ranking returns at most topN products (none when the
    category has no candidate list or topN ≤ 0), ordered by descending
    score with ties broken by ascending case-insensitive name, and two
    calls with identical inputs give identical output. -/
theorem C8_ranking (category vendor_name : Str) (signals : ExtractedSignals) (top_n : Int) :
    (rank_products_for_category category vendor_name signals top_n).length ≤ top_n.toNat ∧
    ((((CATEGORY_TO_PRODUCTS.lookup category).getD []) = [] ∨ top_n ≤ 0) →
      rank_products_for_category category vendor_name signals top_n = []) ∧
    List.Pairwise rankOrder (rank_products_for_category category vendor_name signals top_n) ∧
    rank_products_for_category category vendor_name signals top_n =
      rank_products_for_category category vendor_name signals top_n := by
  refine ⟨rank_length category vendor_name signals top_n, ?_, ?_, rfl⟩
  · intro h
    rw [rank_def]
    rcases h with h | h
    · rw [if_pos (Or.inl (by rw [h]; rfl))]
    · rw [if_pos (Or.inr h)]
  · rw [rank_def]
    split
    · exact List.Pairwise.nil
    · refine List.Pairwise.sublist (List.take_sublist _ _) ?_
      exact (@List.sorted_mergeSort RankedProduct rankLe rankLe_trans rankLe_total _).imp
        (fun h => rankLe_iff.mp h)

set_option maxRecDepth 400000 in
theorem C8_ranking_witness :
    ((((CATEGORY_TO_PRODUCTS.lookup (str "Unknown")).getD [] = [] ∨ (3:Int) ≤ 0) ∧
      rank_products_for_category (str "Unknown") (str "") emptySignals 3 = []) ∧
    ((rank_products_for_category (str "Payments") (str "Stripe")
        (extract_signals stripeInput) 3).length ≤ (3:Int).toNat ∧
      List.Pairwise rankOrder (rank_products_for_category (str "Payments") (str "Stripe")
        (extract_signals stripeInput) 3))) :=
  ⟨⟨Or.inl (by decide),
    (C8_ranking (str "Unknown") (str "") emptySignals 3).2.1 (Or.inl (by decide))⟩,
   ⟨(C8_ranking (str "Payments") (str "Stripe") (extract_signals stripeInput) 3).1,
    (C8_ranking (str "Payments") (str "Stripe") (extract_signals stripeInput) 3).2.2.1⟩⟩

end SaaSClassification
